import Mathlib

/-!
Shallow embedding of the EPTL spreadsheet-to-JSON transform
(scripts/update-companies-v2-json.cjs) and proofs about it.

The script reads tabular rows, normalizes each field, routes each row
through a fixed category-to-pillar table into nested buckets
(Brain / Engine / Megaphone plus a side buffer for Digital Comms), and
serializes the buckets to a nested JSON structure.

Modelling notes, each tied to a line of the source:
  - JavaScript objects used as string maps are modelled as insertion-ordered
    association lists `List (String × _)`; adding a new key appends at the
    end, exactly as JS object insertion order works.  Prototype-chain
    lookups (e.g. a category literally named "constructor") are not
    modelled: the mapping table is a finite map over its ten literal keys.
  - The value stored at `companiesByPillar.Megaphone["Participation &
    Election Tech"]` and at each `companiesByPillar.Engine[k]` is either a
    JS array or a plain object, depending on which branch created it.  A JS
    array can additionally carry non-index string properties (the grouped
    branch writes `arr[subcategory] = []` when the slot already holds an
    array).  This is modelled by `Bucket.flat companies extras`: `extras`
    holds those named properties.  `JSON.stringify` of an array ignores
    non-index properties, so serialization drops `extras`.  Subcategory
    names that are canonical numeric array indices are not modelled.
  - Calling `.push` on a plain object throws a TypeError; the row loop is
    therefore modelled in `Except String`, an error aborting the run
    before the output file is written.
  - `console.warn` calls are collected in order in `State.warnings`.
  - `normalize(v)` is `String(v).trim()` with `null`/`undefined` mapped to
    `""`; absent cells are modelled as the field value `""`, which
    normalizes identically.
-/

set_option autoImplicit false

namespace EPTL

/-- Source line 15: `normalize` trims surrounding whitespace (JS
`String.prototype.trim`), written as structural recursion over the
character list so that concrete inputs evaluate. -/
def normalize (s : String) : String :=
  String.mk (((s.data.dropWhile Char.isWhitespace).reverse.dropWhile Char.isWhitespace).reverse)

/-- One data row as produced by `getDataRows` (a record of column values;
a column missing from the sheet yields `""`).  `hubURLCol` is the
`Hub URL` column and `hub_urlCol` the `hub_url` fallback of line 82. -/
structure Row where
  entity : String := ""
  domain : String := ""
  description : String := ""
  category : String := ""
  subCategory : String := ""
  hq : String := ""
  logo : String := ""
  hubURLCol : String := ""
  hub_urlCol : String := ""
deriving Repr, DecidableEq

/-- The company record built at lines 86-93: `hq`, `logo`, `hub_url` are
set only when non-empty; `domain` and `description` are always present. -/
structure Company where
  name : String
  domain : String
  description : String
  hq : Option String := none
  logo : Option String := none
  hub_url : Option String := none
deriving Repr, DecidableEq

/-- Source lines 48-59: the category-to-pillar lookup table. -/
def categoryToPillar (c : String) : Option (String × Option String) :=
  if c = "Research & Intelligence" then some ("Brain", some "Research & Intelligence")
  else if c = "Strategy & Creative Production" then some ("Brain", some "Strategy & Creative Production")
  else if c = "Field & Mobilization" then some ("Engine", none)
  else if c = "Campaign Management & CRM" then some ("Engine", none)
  else if c = "Fundraising & Payments" then some ("Engine", none)
  else if c = "Organisational Infrastructure" then some ("Engine", some "Organizational Infrastructure")
  else if c = "Digital Comms & Advertising" then some ("Megaphone", some "Digital Communications and Advertising")
  else if c = "Information Integrity & Defense" then some ("Megaphone", none)
  else if c = "Social Media & Management" then some ("Megaphone", none)
  else if c = "Participation & Election Tech" then some ("Megaphone", none)
  else none

/-- A subcategory map: JS object from subcategory name to company array,
in insertion order. -/
abbrev Subcats := List (String × List Company)

/-- The JS idiom `if (!m[k]) m[k] = []; m[k].push(c)`: appends `c` to the
array at key `k`, creating the key at the end of the object if absent. -/
def pushAssoc (a : Subcats) (k : String) (c : Company) : Subcats :=
  match a with
  | [] => [(k, [c])]
  | (k', cs) :: rest =>
      if k' = k then (k', cs ++ [c]) :: rest else (k', cs) :: pushAssoc rest k c

/-- The value held at a dynamic category slot: a JS array (with possible
non-index named properties `extras`, see the modelling notes) or a plain
object from subcategory to company array. -/
inductive Bucket where
  | flat (companies : List Company) (extras : Subcats)
  | grouped (subcats : Subcats)
deriving Repr, DecidableEq

/-- The mutable state of the row loop: `companiesByPillar` (lines 64-71,
with `Megaphone` holding at most the single key `Participation & Election
Tech`, the only key the loop ever writes there), `digitalCommsSubcats`
(line 72) and the warnings printed so far. -/
structure State where
  Brain : List (String × Subcats)
  Engine : List (String × Bucket)
  MegaphonePET : Option Bucket
  digitalCommsSubcats : Subcats
  warnings : List String
deriving Repr, DecidableEq

/-- Lines 64-72: both Brain categories pre-created as empty objects. -/
def initState : State :=
  { Brain := [("Research & Intelligence", []), ("Strategy & Creative Production", [])]
    Engine := []
    MegaphonePET := none
    digitalCommsSubcats := []
    warnings := [] }

/-- Lines 103-105: push into `Brain[pillarCategory][subcategory]`.  The two
Brain keys always exist (initState); an absent key is left unchanged. -/
def brainPush (b : List (String × Subcats)) (pc sub : String) (c : Company) :
    List (String × Subcats) :=
  b.map fun p => if p.1 = pc then (p.1, pushAssoc p.2 sub c) else p

/-- Lines 113-115: ensure `Engine["Organizational Infrastructure"]` exists,
then push into its subcategory array.  When the slot already holds an
array (never reachable, see `EngineWF`), JS would write a named property
on the array, modelled via `extras`. -/
def engineGroupedPush (e : List (String × Bucket)) (sub : String) (c : Company) :
    List (String × Bucket) :=
  match e with
  | [] => [("Organizational Infrastructure", Bucket.grouped [(sub, [c])])]
  | (k, b) :: rest =>
      if k = "Organizational Infrastructure" then
        match b with
        | Bucket.grouped m => (k, Bucket.grouped (pushAssoc m sub c)) :: rest
        | Bucket.flat cs ex => (k, Bucket.flat cs (pushAssoc ex sub c)) :: rest
      else (k, b) :: engineGroupedPush rest sub c

/-- Lines 120-121: `if (!Engine[cat]) Engine[cat] = []; Engine[cat].push(c)`.
If the slot holds a plain object, `.push` is undefined and a TypeError is
thrown. -/
def engineFlatPush (e : List (String × Bucket)) (cat : String) (c : Company) :
    Except String (List (String × Bucket)) :=
  match e with
  | [] => Except.ok [(cat, Bucket.flat [c] [])]
  | (k, b) :: rest =>
      if k = cat then
        match b with
        | Bucket.flat cs ex => Except.ok ((k, Bucket.flat (cs ++ [c]) ex) :: rest)
        | Bucket.grouped _ =>
            Except.error "TypeError: companiesByPillar.Engine[category].push is not a function"
      else (engineFlatPush rest cat c).map fun rest2 => (k, b) :: rest2

/-- Lines 132-135: the grouped branch for Participation & Election Tech.
On an existing array the subcategory array becomes a named property. -/
def petGroupedPush (b : Option Bucket) (sub : String) (c : Company) : Bucket :=
  match b with
  | none => Bucket.grouped [(sub, [c])]
  | some (Bucket.grouped m) => Bucket.grouped (pushAssoc m sub c)
  | some (Bucket.flat cs ex) => Bucket.flat cs (pushAssoc ex sub c)

/-- Lines 136-138: the flat branch for Participation & Election Tech.
Pushing onto a plain object throws a TypeError. -/
def petFlatPush (b : Option Bucket) (c : Company) : Except String Bucket :=
  match b with
  | none => Except.ok (Bucket.flat [c] [])
  | some (Bucket.flat cs ex) => Except.ok (Bucket.flat (cs ++ [c]) ex)
  | some (Bucket.grouped _) =>
      Except.error "TypeError: companiesByPillar.Megaphone[Participation & Election Tech].push is not a function"

/-- Normalized entity of a row (line 75). -/
def Row.nEntity (r : Row) : String := normalize r.entity
/-- Normalized category of a row (line 78). -/
def Row.nCategory (r : Row) : String := normalize r.category
/-- Normalized subcategory of a row (line 79). -/
def Row.nSubcategory (r : Row) : String := normalize r.subCategory

/-- The company derived from a row (lines 86-93). -/
def rowCompany (r : Row) : Company :=
  { name := r.nEntity
    domain := normalize r.domain
    description := normalize r.description
    hq := if normalize r.hq = "" then none else some (normalize r.hq)
    logo := if normalize r.logo = "" then none else some (normalize r.logo)
    hub_url :=
      let h := normalize (if r.hubURLCol ≠ "" then r.hubURLCol else r.hub_urlCol)
      if h = "" then none else some h }

/-- One iteration of the row loop, lines 74-142. -/
def step (s : State) (r : Row) : Except String State :=
  let entity := r.nEntity
  let category := r.nCategory
  let subcategory := r.nSubcategory
  if entity = "" ∨ category = "" then Except.ok s
  else
    let company := rowCompany r
    match categoryToPillar category with
    | none =>
        Except.ok { s with warnings := s.warnings ++
          ["Warning: Category \"" ++ category ++ "\" not mapped to any pillar"] }
    | some (pillar, pillarCategory) =>
        if pillar = "Brain" then
          match pillarCategory with
          | some pc =>
              if subcategory ≠ "" then
                Except.ok { s with Brain := brainPush s.Brain pc subcategory company }
              else
                Except.ok { s with warnings := s.warnings ++
                  ["Warning: " ++ entity ++ " in " ++ category ++ " has no subcategory"] }
          | none => Except.ok s
        else if pillar = "Engine" then
          match pillarCategory with
          | some _ =>
              if subcategory ≠ "" then
                Except.ok { s with Engine := engineGroupedPush s.Engine subcategory company }
              else
                Except.ok { s with warnings := s.warnings ++
                  ["Warning: " ++ entity ++ " in " ++ category ++ " has no subcategory"] }
          | none =>
              (engineFlatPush s.Engine category company).map fun e => { s with Engine := e }
        else if pillar = "Megaphone" then
          if category = "Digital Comms & Advertising" then
            if subcategory ≠ "" then
              Except.ok { s with digitalCommsSubcats := pushAssoc s.digitalCommsSubcats subcategory company }
            else
              Except.ok { s with warnings := s.warnings ++
                ["Warning: " ++ entity ++ " in Digital Comms & Advertising has no subcategory"] }
          else if category = "Participation & Election Tech" then
            if subcategory ≠ "" then
              Except.ok { s with MegaphonePET := some (petGroupedPush s.MegaphonePET subcategory company) }
            else
              (petFlatPush s.MegaphonePET company).map fun b => { s with MegaphonePET := some b }
          else Except.ok s
        else Except.ok s

/-- A category value in the serialized output: a JSON array of companies or
a JSON object from subcategory to company array. -/
inductive CatValue where
  | flat (companies : List Company)
  | grouped (subcats : Subcats)
deriving Repr, DecidableEq

/-- The serialized output: the three pillars, each an ordered object from
category display name to value. -/
structure PillarStructure where
  Brain : List (String × CatValue)
  Engine : List (String × CatValue)
  Megaphone : List (String × CatValue)
deriving Repr, DecidableEq

/-- Line 144: the fixed Engine emission order. -/
def engineOrder : List String :=
  ["Field & Mobilization", "Campaign Management & CRM", "Fundraising & Payments",
   "Organizational Infrastructure"]

/-- `JSON.stringify` of a JS array ignores non-index properties, so the
`extras` of a flat bucket are dropped. -/
def Bucket.toCatValue : Bucket → CatValue
  | Bucket.flat cs _ => CatValue.flat cs
  | Bucket.grouped m => CatValue.grouped m

/-- First-match association-list lookup, i.e. JS property read. -/
def lookupStr {α : Type} : List (String × α) → String → Option α
  | [], _ => none
  | (k', v) :: rest, k => if k' = k then some v else lookupStr rest k

/-- Lines 146-172: assemble `result` from the buckets.  Brain entries are
copied verbatim (lines 152-154, no emptiness check); Engine follows
`engineOrder`, skipping absent keys (156-160); the Digital Comms buffer is
emitted first under its display name when non-empty, keeping only
non-empty subcategory arrays (162-167); then the remaining Megaphone
entries (169-172; the skip of the Digital Comms display name there is
vacuous, since the loop only ever writes the Participation key). -/
def serialize (s : State) : PillarStructure :=
  { Brain := s.Brain.map fun p => (p.1, CatValue.grouped p.2)
    Engine := engineOrder.filterMap fun k =>
      (lookupStr s.Engine k).map fun b => (k, b.toCatValue)
    Megaphone :=
      (if s.digitalCommsSubcats ≠ [] then
        [("Digital Communications and Advertising",
          CatValue.grouped (s.digitalCommsSubcats.filter fun p => p.2 ≠ []))]
       else []) ++
      (match s.MegaphonePET with
       | none => []
       | some b => [("Participation & Election Tech", b.toCatValue)]) }

/-- The whole transform on an already-loaded row list: run the loop, then
serialize; a thrown TypeError aborts before anything is written.  Returns
the written structure together with the warnings printed. -/
def run (rows : List Row) : Except String (PillarStructure × List String) :=
  (rows.foldlM step initState).map fun s => (serialize s, s.warnings)

/-- Line 45 and the surrounding loader: `none` models the absence of both
`map_data.xlsx` and `map_data.csv`, the only condition on which the loader
itself throws; otherwise the loaded rows are processed. -/
def runScript (sources : Option (List Row)) : Except String (PillarStructure × List String) :=
  match sources with
  | none => Except.error "Neither map_data.xlsx nor map_data.csv found"
  | some rows => run rows

/-! ### Derived notions used to state the claims -/

/-- The three Engine categories stored as flat arrays. -/
def engineFlatCats : List String :=
  ["Field & Mobilization", "Campaign Management & CRM", "Fundraising & Payments"]

/-- A row that reaches the Participation & Election Tech branch. -/
def isPETRow (r : Row) : Bool :=
  r.nEntity != "" && r.nCategory == "Participation & Election Tech"

/-- All Participation & Election Tech rows of the input agree on whether
they carry a subcategory (the shape of that bucket is then stable). -/
def PETUniform (rows : List Row) : Prop :=
  (∀ r ∈ rows, isPETRow r → r.nSubcategory ≠ "") ∨
  (∀ r ∈ rows, isPETRow r → r.nSubcategory = "")

/-- A row whose company actually lands in a leaf: valid, mapped, not one of
the two unrouted Megaphone categories, and carrying a subcategory whenever
its category requires one. -/
def placedB (r : Row) : Bool :=
  r.nEntity != "" &&
  ((r.nCategory == "Research & Intelligence" && r.nSubcategory != "") ||
   (r.nCategory == "Strategy & Creative Production" && r.nSubcategory != "") ||
   (r.nCategory == "Field & Mobilization") ||
   (r.nCategory == "Campaign Management & CRM") ||
   (r.nCategory == "Fundraising & Payments") ||
   (r.nCategory == "Organisational Infrastructure" && r.nSubcategory != "") ||
   (r.nCategory == "Digital Comms & Advertising" && r.nSubcategory != "") ||
   (r.nCategory == "Participation & Election Tech"))

/-- The multiset of companies of the rows that get placed, a multiset
because two identical rows legitimately produce two identical companies. -/
def placedM (rows : List Row) : Multiset Company :=
  ((rows.filter placedB).map rowCompany : List Company)

/-- Companies stored in a subcategory map. -/
def subcatsM (a : Subcats) : Multiset Company :=
  (a.map fun p => (p.2 : Multiset Company)).sum

/-- Companies stored in a bucket, named array properties included. -/
def Bucket.toM : Bucket → Multiset Company
  | Bucket.flat cs ex => (cs : Multiset Company) + subcatsM ex
  | Bucket.grouped m => subcatsM m

/-- Companies held in the Brain buckets. -/
def brainM (b : List (String × Subcats)) : Multiset Company :=
  (b.map fun p => subcatsM p.2).sum

/-- Companies held in the Engine buckets. -/
def engineM (e : List (String × Bucket)) : Multiset Company :=
  (e.map fun p => p.2.toM).sum

/-- Companies held in the Participation & Election Tech slot. -/
def petM : Option Bucket → Multiset Company
  | none => 0
  | some b => b.toM

/-- All companies held in the loop state. -/
def stateM (s : State) : Multiset Company :=
  brainM s.Brain + engineM s.Engine + subcatsM s.digitalCommsSubcats + petM s.MegaphonePET

/-- Companies stored in one serialized category value. -/
def catValueM : CatValue → Multiset Company
  | CatValue.flat cs => (cs : Multiset Company)
  | CatValue.grouped m => subcatsM m

/-- Companies stored in one serialized pillar. -/
def pillarM (l : List (String × CatValue)) : Multiset Company :=
  (l.map fun p => catValueM p.2).sum

/-- All companies appearing in the leaves of the output. -/
def leavesM (o : PillarStructure) : Multiset Company :=
  pillarM o.Brain + pillarM o.Engine + pillarM o.Megaphone

/-- A serialized category value with no empty leaf under it. -/
def CatNonempty : CatValue → Prop
  | CatValue.flat cs => cs ≠ []
  | CatValue.grouped m => m ≠ [] ∧ ∀ q ∈ m, q.2 ≠ []

/-- Shape invariant of an emitted company record: non-empty name, and the
three optional fields never hold an empty placeholder (`domain` and
`description` are always present by the record type itself). -/
def CompanyWF (c : Company) : Prop :=
  c.name ≠ "" ∧ c.hq ≠ some "" ∧ c.logo ≠ some "" ∧ c.hub_url ≠ some ""

/-- Per-row update of the Digital Comms side buffer, recomputed directly
from the row. -/
def dcaStep (d : Subcats) (r : Row) : Subcats :=
  if r.nEntity != "" && r.nCategory == "Digital Comms & Advertising" && r.nSubcategory != "" then
    pushAssoc d r.nSubcategory (rowCompany r)
  else d

/-- The Digital Comms buffer an input is expected to produce. -/
def dcaExpected (rows : List Row) : Subcats := rows.foldl dcaStep []

/-- Per-row update of the Organizational Infrastructure subcategory map. -/
def oiStep (m : Subcats) (r : Row) : Subcats :=
  if r.nEntity != "" && r.nCategory == "Organisational Infrastructure" && r.nSubcategory != "" then
    pushAssoc m r.nSubcategory (rowCompany r)
  else m

/-- The Organizational Infrastructure map an input is expected to produce. -/
def oiExpected (rows : List Row) : Subcats := rows.foldl oiStep []

/-- Per-row update of the Participation & Election Tech grouped map. -/
def petGStep (m : Subcats) (r : Row) : Subcats :=
  if isPETRow r && r.nSubcategory != "" then pushAssoc m r.nSubcategory (rowCompany r) else m

/-- The Participation & Election Tech grouped map expected when every such
row carries a subcategory. -/
def petGroupedExpected (rows : List Row) : Subcats := rows.foldl petGStep []

/-- Per-row update of the Participation & Election Tech flat list. -/
def petFStep (cs : List Company) (r : Row) : List Company :=
  if isPETRow r && r.nSubcategory == "" then cs ++ [rowCompany r] else cs

/-- The Participation & Election Tech flat list expected when no such row
carries a subcategory. -/
def petFlatExpected (rows : List Row) : List Company := rows.foldl petFStep []

/-- Whether a row makes the given Engine category key present. -/
def rowEngineKey (r : Row) (k : String) : Bool :=
  r.nEntity != "" &&
  (((r.nCategory == "Field & Mobilization" || r.nCategory == "Campaign Management & CRM" ||
     r.nCategory == "Fundraising & Payments") && k == r.nCategory) ||
   (r.nCategory == "Organisational Infrastructure" && r.nSubcategory != "" &&
    k == "Organizational Infrastructure"))

/-- Whether some row of the input populates the given Engine category. -/
def engineReceived (rows : List Row) (k : String) : Bool :=
  rows.any fun r => rowEngineKey r k

/-- Appends a warning to the state, leaving the buckets unchanged. -/
def addWarning (s : State) (w : String) : State :=
  { s with warnings := s.warnings ++ [w] }

/-- Engine slots: the Organizational Infrastructure key always holds a
plain object, every other key is one of the three flat categories and
holds a plain array with no named properties; keys are distinct. -/
def EngineWF (e : List (String × Bucket)) : Prop :=
  (e.map Prod.fst).Nodup ∧
  ∀ p ∈ e,
    (p.1 = "Organizational Infrastructure" ∧ ∃ m, p.2 = Bucket.grouped m) ∨
    (p.1 ∈ engineFlatCats ∧ ∃ cs, p.2 = Bucket.flat cs [])

/-- Invariant holding in every reachable state: the Brain object keeps
exactly its two pre-created keys, and the Engine object is well formed. -/
def StateWF (s : State) : Prop :=
  s.Brain.map Prod.fst = ["Research & Intelligence", "Strategy & Creative Production"] ∧
  EngineWF s.Engine

/-- Shape of the Participation & Election Tech slot when all its rows agree
on subcategory presence (`mode = true`: all carry one). -/
def PETWF (mode : Bool) : Option Bucket → Prop
  | none => True
  | some (Bucket.grouped _) => mode = true
  | some (Bucket.flat _ ex) => mode = false ∧ ex = []

/-- Value nonemptiness of a bucket: the array is non-empty and every
subcategory array under it is non-empty. -/
def BucketNE : Bucket → Prop
  | Bucket.flat cs ex => cs ≠ [] ∧ ∀ q ∈ ex, q.2 ≠ []
  | Bucket.grouped m => m ≠ [] ∧ ∀ q ∈ m, q.2 ≠ []

/-- Nonemptiness invariant of the loop state: every company array anywhere
in the buckets is non-empty (arrays are only ever created around a first
company). -/
def StateNE (s : State) : Prop :=
  (∀ p ∈ s.Brain, ∀ q ∈ p.2, q.2 ≠ []) ∧
  (∀ p ∈ s.Engine, BucketNE p.2) ∧
  (∀ q ∈ s.digitalCommsSubcats, q.2 ≠ []) ∧
  (∀ b, s.MegaphonePET = some b → BucketNE b)

/-- A grouped slot regarded as an optional bucket: absent when the
accumulated map is empty. -/
def optG (m : Subcats) : Option Bucket :=
  if m = [] then none else some (Bucket.grouped m)

/-- A flat slot regarded as an optional bucket: absent when the accumulated
array is empty. -/
def optF (cs : List Company) : Option Bucket :=
  if cs = [] then none else some (Bucket.flat cs [])

/-! ### Association-list helper lemmas -/

theorem subcatsM_cons (p : String × List Company) (a : Subcats) :
    subcatsM (p :: a) = (p.2 : Multiset Company) + subcatsM a := by
  simp [subcatsM]

theorem subcatsM_pushAssoc (a : Subcats) (k : String) (c : Company) :
    subcatsM (pushAssoc a k c) = subcatsM a + {c} := by
  induction a with
  | nil => simp [pushAssoc, subcatsM]
  | cons p rest ih =>
      obtain ⟨k', cs⟩ := p
      by_cases h : k' = k
      · simp only [pushAssoc, if_pos h, subcatsM_cons]
        rw [← Multiset.coe_add, ← Multiset.coe_singleton c]
        abel
      · simp only [pushAssoc, if_neg h, subcatsM_cons, ih]
        abel

theorem pushAssoc_ne_nil (a : Subcats) (k : String) (c : Company) :
    pushAssoc a k c ≠ [] := by
  cases a with
  | nil => simp [pushAssoc]
  | cons p rest =>
      obtain ⟨k', cs⟩ := p
      by_cases h : k' = k <;> simp [pushAssoc, h]

theorem pushAssoc_vals_ne_nil (a : Subcats) (k : String) (c : Company)
    (h : ∀ q ∈ a, q.2 ≠ []) : ∀ q ∈ pushAssoc a k c, q.2 ≠ [] := by
  induction a with
  | nil =>
      intro q hq
      simp [pushAssoc] at hq
      simp [hq]
  | cons p rest ih =>
      obtain ⟨k', cs⟩ := p
      intro q hq
      by_cases hk : k' = k
      · simp only [pushAssoc, if_pos hk] at hq
        rcases List.mem_cons.mp hq with h1 | h1
        · simp [h1]
        · exact h q (List.mem_cons_of_mem _ h1)
      · simp only [pushAssoc, if_neg hk] at hq
        rcases List.mem_cons.mp hq with h1 | h1
        · exact h q (h1 ▸ List.mem_cons_self _ _)
        · exact ih (fun q hq => h q (List.mem_cons_of_mem _ hq)) q h1

theorem filter_vals_ne_nil (a : Subcats) (h : ∀ q ∈ a, q.2 ≠ []) :
    (a.filter fun p => p.2 ≠ []) = a := by
  induction a with
  | nil => rfl
  | cons p rest ih =>
      have hp : p.2 ≠ [] := h p (List.mem_cons_self _ _)
      have hr := ih (fun q hq => h q (List.mem_cons_of_mem _ hq))
      simp only [List.filter_cons, hp, hr]
      simp [hp, hr]

theorem subcatsM_filter_ne_nil (a : Subcats) :
    subcatsM (a.filter fun p => p.2 ≠ []) = subcatsM a := by
  induction a with
  | nil => rfl
  | cons p rest ih =>
      obtain ⟨k, cs⟩ := p
      cases cs with
      | nil => simpa [List.filter_cons, subcatsM_cons] using ih
      | cons c cs2 =>
          simp only [ne_eq, decide_not] at ih
          simp [List.filter_cons, subcatsM_cons, ih]

theorem lookupStr_eq_none {α : Type} (l : List (String × α)) (k : String)
    (h : k ∉ l.map Prod.fst) : lookupStr l k = none := by
  induction l with
  | nil => rfl
  | cons p rest ih =>
      simp only [List.map_cons, List.mem_cons] at h
      push_neg at h
      simp only [lookupStr]
      rw [if_neg (fun he => h.1 he.symm), ih h.2]

theorem lookupStr_isSome_iff {α : Type} (l : List (String × α)) (k : String) :
    (lookupStr l k).isSome = true ↔ k ∈ l.map Prod.fst := by
  induction l with
  | nil => simp [lookupStr]
  | cons p rest ih =>
      simp only [lookupStr, List.map_cons, List.mem_cons]
      by_cases h : p.1 = k
      · simp [h]
      · simp only [if_neg h, ih]
        constructor
        · exact Or.inr
        · rintro (h1 | h1)
          · exact absurd h1.symm h
          · exact h1

theorem lookupStr_mem {α : Type} (l : List (String × α)) (k : String) (v : α)
    (h : lookupStr l k = some v) : (k, v) ∈ l := by
  induction l with
  | nil => simp [lookupStr] at h
  | cons p rest ih =>
      simp only [lookupStr] at h
      by_cases hk : p.1 = k
      · rw [if_pos hk] at h
        obtain ⟨k', v'⟩ := p
        cases hk
        cases Option.some.inj h
        exact List.mem_cons_self _ _
      · rw [if_neg hk] at h
        exact List.mem_cons_of_mem _ (ih h)

/-! ### Bucket operation lemmas -/

theorem brainPush_id (b : List (String × Subcats)) (pc sub : String) (c : Company)
    (h : pc ∉ b.map Prod.fst) : brainPush b pc sub c = b := by
  induction b with
  | nil => rfl
  | cons p rest ih =>
      simp only [List.map_cons, List.mem_cons] at h
      push_neg at h
      simp only [brainPush, List.map_cons]
      rw [if_neg (fun he => h.1 he.symm)]
      have := ih h.2
      simp only [brainPush] at this
      rw [this]

theorem brainPush_keys (b : List (String × Subcats)) (pc sub : String) (c : Company) :
    (brainPush b pc sub c).map Prod.fst = b.map Prod.fst := by
  induction b with
  | nil => rfl
  | cons p rest ih =>
      simp only [brainPush, List.map_cons] at ih ⊢
      by_cases h : p.1 = pc <;> simp [h, ih]

theorem brainPush_sum (b : List (String × Subcats)) (pc sub : String) (c : Company)
    (hnd : (b.map Prod.fst).Nodup) (hmem : pc ∈ b.map Prod.fst) :
    ((brainPush b pc sub c).map fun p => subcatsM p.2).sum =
      (b.map fun p => subcatsM p.2).sum + {c} := by
  induction b with
  | nil => simp at hmem
  | cons p rest ih =>
      simp only [List.map_cons, List.nodup_cons] at hnd
      simp only [List.map_cons, List.mem_cons] at hmem
      by_cases h : p.1 = pc
      · have hnot : pc ∉ rest.map Prod.fst := h ▸ hnd.1
        simp only [brainPush, if_pos h, List.map_cons, List.sum_cons]
        have hid : List.map (fun q => if q.1 = pc then (q.1, pushAssoc q.2 sub c) else q) rest
            = rest := brainPush_id rest pc sub c hnot
        rw [hid, subcatsM_pushAssoc]
        abel
      · have hmem2 : pc ∈ rest.map Prod.fst := by
          rcases hmem with h1 | h1
          · exact absurd h1.symm h
          · exact h1
        simp only [brainPush, if_neg h, List.map_cons, List.sum_cons] at ih ⊢
        rw [ih hnd.2 hmem2]
        abel

theorem brainPush_vals_ne_nil (b : List (String × Subcats)) (pc sub : String) (c : Company)
    (h : ∀ p ∈ b, ∀ q ∈ p.2, q.2 ≠ []) :
    ∀ p ∈ brainPush b pc sub c, ∀ q ∈ p.2, q.2 ≠ [] := by
  intro p hp
  simp only [brainPush, List.mem_map] at hp
  obtain ⟨p0, hp0, hp0eq⟩ := hp
  by_cases he : p0.1 = pc
  · rw [if_pos he] at hp0eq
    subst hp0eq
    exact pushAssoc_vals_ne_nil _ _ _ (h p0 hp0)
  · rw [if_neg he] at hp0eq
    subst hp0eq
    exact h p0 hp0

theorem engineGroupedPush_sum (e : List (String × Bucket)) (sub : String) (c : Company) :
    ((engineGroupedPush e sub c).map fun p => p.2.toM).sum =
      (e.map fun p => p.2.toM).sum + {c} := by
  induction e with
  | nil => simp [engineGroupedPush, Bucket.toM, subcatsM_pushAssoc, subcatsM]
  | cons p rest ih =>
      obtain ⟨k, b⟩ := p
      by_cases h : k = "Organizational Infrastructure"
      · cases b with
        | grouped m =>
            simp only [engineGroupedPush, if_pos h, List.map_cons, List.sum_cons,
              Bucket.toM, subcatsM_pushAssoc]
            abel
        | flat cs ex =>
            simp only [engineGroupedPush, if_pos h, List.map_cons, List.sum_cons,
              Bucket.toM, subcatsM_pushAssoc]
            abel
      · simp only [engineGroupedPush, if_neg h, List.map_cons, List.sum_cons, ih]
        abel

theorem engineGroupedPush_keys (e : List (String × Bucket)) (sub : String) (c : Company) :
    (engineGroupedPush e sub c).map Prod.fst =
      if "Organizational Infrastructure" ∈ e.map Prod.fst then e.map Prod.fst
      else e.map Prod.fst ++ ["Organizational Infrastructure"] := by
  induction e with
  | nil => simp [engineGroupedPush]
  | cons p rest ih =>
      obtain ⟨k, b⟩ := p
      by_cases h : k = "Organizational Infrastructure"
      · cases b <;> simp [engineGroupedPush, h]
      · have h' : ¬("Organizational Infrastructure" = k) := fun hh => h hh.symm
        simp only [engineGroupedPush, if_neg h, List.map_cons, ih]
        by_cases hm : "Organizational Infrastructure" ∈ rest.map Prod.fst
        · simp [hm, h']
        · simp [hm, h']

theorem engineGroupedPush_lookup_other (e : List (String × Bucket)) (sub : String)
    (c : Company) (k : String) (h : k ≠ "Organizational Infrastructure") :
    lookupStr (engineGroupedPush e sub c) k = lookupStr e k := by
  have h' : ¬("Organizational Infrastructure" = k) := fun hh => h hh.symm
  induction e with
  | nil => simp [engineGroupedPush, lookupStr, h']
  | cons p rest ih =>
      obtain ⟨k', b⟩ := p
      by_cases h2 : k' = "Organizational Infrastructure"
      · subst h2
        cases b <;> simp [engineGroupedPush, lookupStr, h']
      · simp only [engineGroupedPush, if_neg h2, lookupStr]
        by_cases hk : k' = k
        · simp [hk]
        · simp [hk, ih]

theorem engineGroupedPush_lookup_oi (e : List (String × Bucket)) (sub : String) (c : Company) :
    lookupStr (engineGroupedPush e sub c) "Organizational Infrastructure" =
      some (petGroupedPush (lookupStr e "Organizational Infrastructure") sub c) := by
  induction e with
  | nil => simp [engineGroupedPush, lookupStr, petGroupedPush]
  | cons p rest ih =>
      obtain ⟨k, b⟩ := p
      by_cases h : k = "Organizational Infrastructure"
      · cases b <;> simp [engineGroupedPush, h, lookupStr, petGroupedPush]
      · simp [engineGroupedPush, h, lookupStr, ih]

theorem engineGroupedPush_NE (e : List (String × Bucket)) (sub : String) (c : Company)
    (h : ∀ p ∈ e, BucketNE p.2) : ∀ p ∈ engineGroupedPush e sub c, BucketNE p.2 := by
  induction e with
  | nil =>
      intro p hp
      simp only [engineGroupedPush, List.mem_singleton] at hp
      subst hp
      refine ⟨by simp, ?_⟩
      intro q hq
      simp only [List.mem_singleton] at hq
      simp [hq]
  | cons q rest ih =>
      obtain ⟨k, b⟩ := q
      intro p hp
      by_cases hk : k = "Organizational Infrastructure"
      · cases b with
        | grouped m =>
            simp only [engineGroupedPush, if_pos hk, List.mem_cons] at hp
            rcases hp with hp | hp
            · subst hp
              have hb := h (k, Bucket.grouped m) (List.mem_cons_self _ _)
              exact ⟨pushAssoc_ne_nil _ _ _, pushAssoc_vals_ne_nil _ _ _ hb.2⟩
            · exact h p (List.mem_cons_of_mem _ hp)
        | flat cs ex =>
            simp only [engineGroupedPush, if_pos hk, List.mem_cons] at hp
            rcases hp with hp | hp
            · subst hp
              have hb := h (k, Bucket.flat cs ex) (List.mem_cons_self _ _)
              exact ⟨hb.1, pushAssoc_vals_ne_nil _ _ _ hb.2⟩
            · exact h p (List.mem_cons_of_mem _ hp)
      · simp only [engineGroupedPush, if_neg hk, List.mem_cons] at hp
        rcases hp with hp | hp
        · subst hp
          exact h (k, b) (List.mem_cons_self _ _)
        · exact ih (fun q hq => h q (List.mem_cons_of_mem _ hq)) p hp

theorem engineFlatPush_ok_sum (e e' : List (String × Bucket)) (cat : String) (c : Company)
    (h : engineFlatPush e cat c = Except.ok e') :
    (e'.map fun p => p.2.toM).sum = (e.map fun p => p.2.toM).sum + {c} := by
  induction e generalizing e' with
  | nil =>
      simp only [engineFlatPush, Except.ok.injEq] at h
      subst h
      simp [Bucket.toM, subcatsM]
  | cons p rest ih =>
      obtain ⟨k, b⟩ := p
      by_cases hk : k = cat
      · cases b with
        | flat cs ex =>
            simp only [engineFlatPush, if_pos hk, Except.ok.injEq] at h
            subst h
            simp only [List.map_cons, List.sum_cons, Bucket.toM]
            rw [← Multiset.coe_add, ← Multiset.coe_singleton c]
            abel
        | grouped m => simp [engineFlatPush, if_pos hk] at h
      · simp only [engineFlatPush, if_neg hk] at h
        cases hrec : engineFlatPush rest cat c with
        | error msg => rw [hrec] at h; simp [Except.map] at h
        | ok rest2 =>
            rw [hrec] at h
            simp only [Except.map, Except.ok.injEq] at h
            subst h
            simp only [List.map_cons, List.sum_cons, ih rest2 hrec]
            abel

theorem engineFlatPush_ok_keys (e e' : List (String × Bucket)) (cat : String) (c : Company)
    (h : engineFlatPush e cat c = Except.ok e') :
    e'.map Prod.fst =
      if cat ∈ e.map Prod.fst then e.map Prod.fst else e.map Prod.fst ++ [cat] := by
  induction e generalizing e' with
  | nil =>
      simp only [engineFlatPush, Except.ok.injEq] at h
      subst h
      simp
  | cons p rest ih =>
      obtain ⟨k, b⟩ := p
      by_cases hk : k = cat
      · cases b with
        | flat cs ex =>
            simp only [engineFlatPush, if_pos hk, Except.ok.injEq] at h
            subst h
            simp [hk]
        | grouped m => simp [engineFlatPush, if_pos hk] at h
      · simp only [engineFlatPush, if_neg hk] at h
        cases hrec : engineFlatPush rest cat c with
        | error msg => rw [hrec] at h; simp [Except.map] at h
        | ok rest2 =>
            rw [hrec] at h
            simp only [Except.map, Except.ok.injEq] at h
            subst h
            have hck : ¬ (cat = k) := fun hh => hk hh.symm
            simp only [List.map_cons, List.mem_cons, ih rest2 hrec]
            by_cases hm : cat ∈ rest.map Prod.fst
            · simp [hm, hck]
            · simp [hm, hck]

theorem engineFlatPush_ok_lookup_other (e e' : List (String × Bucket)) (cat : String)
    (c : Company) (k : String) (h : engineFlatPush e cat c = Except.ok e') (hk : k ≠ cat) :
    lookupStr e' k = lookupStr e k := by
  have hck : ¬ (cat = k) := fun hh => hk hh.symm
  induction e generalizing e' with
  | nil =>
      simp only [engineFlatPush, Except.ok.injEq] at h
      subst h
      simp [lookupStr, hck]
  | cons p rest ih =>
      obtain ⟨k', b⟩ := p
      by_cases hkk : k' = cat
      · cases b with
        | flat cs ex =>
            simp only [engineFlatPush, if_pos hkk, Except.ok.injEq] at h
            subst h
            subst hkk
            simp [lookupStr, hck]
        | grouped m => simp [engineFlatPush, if_pos hkk] at h
      · simp only [engineFlatPush, if_neg hkk] at h
        cases hrec : engineFlatPush rest cat c with
        | error msg => rw [hrec] at h; simp [Except.map] at h
        | ok rest2 =>
            rw [hrec] at h
            simp only [Except.map, Except.ok.injEq] at h
            subst h
            simp [lookupStr, ih rest2 hrec]

theorem engineFlatPush_exists (e : List (String × Bucket)) (cat : String) (c : Company)
    (hWF : EngineWF e) (hcat : cat ∈ engineFlatCats) :
    ∃ e', engineFlatPush e cat c = Except.ok e' := by
  induction e with
  | nil => exact ⟨_, rfl⟩
  | cons p rest ih =>
      obtain ⟨k, b⟩ := p
      obtain ⟨hnd, hvals⟩ := hWF
      by_cases hk : k = cat
      · rcases hvals (k, b) (List.mem_cons_self _ _) with ⟨hoi, m, hb⟩ | ⟨hfl, cs, hb⟩
        · exfalso
          have hoi2 : cat = "Organizational Infrastructure" := by simpa [hk] using hoi
          rw [hoi2] at hcat
          simp [engineFlatCats] at hcat
        · have hb2 : b = Bucket.flat cs [] := hb
          subst hb2
          refine ⟨(k, Bucket.flat (cs ++ [c]) []) :: rest, ?_⟩
          simp [engineFlatPush, if_pos hk]
      · simp only [List.map_cons, List.nodup_cons] at hnd
        obtain ⟨rest2, hrest2⟩ :=
          ih ⟨hnd.2, fun q hq => hvals q (List.mem_cons_of_mem _ hq)⟩
        exact ⟨(k, b) :: rest2, by simp [engineFlatPush, if_neg hk, hrest2, Except.map]⟩

theorem engineFlatPush_ok_vals (e e' : List (String × Bucket)) (cat : String) (c : Company)
    (hcat : cat ∈ engineFlatCats)
    (h : engineFlatPush e cat c = Except.ok e')
    (hvals : ∀ p ∈ e,
      (p.1 = "Organizational Infrastructure" ∧ ∃ m, p.2 = Bucket.grouped m) ∨
      (p.1 ∈ engineFlatCats ∧ ∃ cs, p.2 = Bucket.flat cs [])) :
    ∀ p ∈ e',
      (p.1 = "Organizational Infrastructure" ∧ ∃ m, p.2 = Bucket.grouped m) ∨
      (p.1 ∈ engineFlatCats ∧ ∃ cs, p.2 = Bucket.flat cs []) := by
  induction e generalizing e' with
  | nil =>
      simp only [engineFlatPush, Except.ok.injEq] at h
      subst h
      intro p hp
      simp only [List.mem_singleton] at hp
      subst hp
      exact Or.inr ⟨hcat, [c], rfl⟩
  | cons q rest ih =>
      obtain ⟨k, b⟩ := q
      by_cases hk : k = cat
      · cases b with
        | flat cs ex =>
            simp only [engineFlatPush, if_pos hk, Except.ok.injEq] at h
            subst h
            intro p hp
            rcases List.mem_cons.mp hp with hp1 | hp1
            · subst hp1
              rcases hvals (k, Bucket.flat cs ex) (List.mem_cons_self _ _) with
                ⟨_, m, hb⟩ | ⟨hfl, cs2, hb⟩
              · exact absurd hb (by simp)
              · have hb2 : Bucket.flat cs ex = Bucket.flat cs2 [] := hb
                injection hb2 with hb3 hb4
                subst hb4
                exact Or.inr ⟨hfl, cs ++ [c], rfl⟩
            · exact hvals _ (List.mem_cons_of_mem _ hp1)
        | grouped m => simp [engineFlatPush, if_pos hk] at h
      · simp only [engineFlatPush, if_neg hk] at h
        cases hrec : engineFlatPush rest cat c with
        | error msg => rw [hrec] at h; simp [Except.map] at h
        | ok rest2 =>
            rw [hrec] at h
            simp only [Except.map, Except.ok.injEq] at h
            subst h
            intro p hp
            rcases List.mem_cons.mp hp with hp1 | hp1
            · subst hp1
              exact hvals _ (List.mem_cons_self _ _)
            · exact ih rest2 hrec (fun q hq => hvals q (List.mem_cons_of_mem _ hq)) p hp1

theorem engineFlatPush_ok_WF (e e' : List (String × Bucket)) (cat : String) (c : Company)
    (hWF : EngineWF e) (hcat : cat ∈ engineFlatCats)
    (h : engineFlatPush e cat c = Except.ok e') : EngineWF e' := by
  obtain ⟨hnd, hvals⟩ := hWF
  constructor
  · rw [engineFlatPush_ok_keys e e' cat c h]
    by_cases hm : cat ∈ e.map Prod.fst
    · simp [hm, hnd]
    · simp [hm, List.Nodup.append hnd (List.nodup_singleton cat)
        (by simpa [List.disjoint_singleton] using hm)]
  · exact engineFlatPush_ok_vals e e' cat c hcat h hvals

theorem engineFlatPush_ok_NE (e e' : List (String × Bucket)) (cat : String) (c : Company)
    (hNE : ∀ p ∈ e, BucketNE p.2) (h : engineFlatPush e cat c = Except.ok e') :
    ∀ p ∈ e', BucketNE p.2 := by
  induction e generalizing e' with
  | nil =>
      simp only [engineFlatPush, Except.ok.injEq] at h
      subst h
      intro p hp
      simp only [List.mem_singleton] at hp
      subst hp
      exact ⟨by simp, by simp⟩
  | cons q rest ih =>
      obtain ⟨k, b⟩ := q
      by_cases hk : k = cat
      · cases b with
        | flat cs ex =>
            simp only [engineFlatPush, if_pos hk, Except.ok.injEq] at h
            subst h
            intro p hp
            rcases List.mem_cons.mp hp with hp1 | hp1
            · subst hp1
              have := hNE (k, Bucket.flat cs ex) (List.mem_cons_self _ _)
              exact ⟨by simp, this.2⟩
            · exact hNE _ (List.mem_cons_of_mem _ hp1)
        | grouped m => simp [engineFlatPush, if_pos hk] at h
      · simp only [engineFlatPush, if_neg hk] at h
        cases hrec : engineFlatPush rest cat c with
        | error msg => rw [hrec] at h; simp [Except.map] at h
        | ok rest2 =>
            rw [hrec] at h
            simp only [Except.map, Except.ok.injEq] at h
            subst h
            intro p hp
            rcases List.mem_cons.mp hp with hp1 | hp1
            · subst hp1
              exact hNE _ (List.mem_cons_self _ _)
            · exact ih rest2 (fun q hq => hNE q (List.mem_cons_of_mem _ hq)) hrec p hp1

theorem petGroupedPush_toM (b : Option Bucket) (sub : String) (c : Company) :
    (petGroupedPush b sub c).toM = petM b + {c} := by
  cases b with
  | none => simp [petGroupedPush, petM, Bucket.toM, subcatsM]
  | some b0 =>
      cases b0 with
      | grouped m => simp [petGroupedPush, petM, Bucket.toM, subcatsM_pushAssoc]
      | flat cs ex =>
          simp only [petGroupedPush, petM, Bucket.toM, subcatsM_pushAssoc]
          abel

theorem petFlatPush_ok_toM (b : Option Bucket) (c : Company) (b' : Bucket)
    (h : petFlatPush b c = Except.ok b') : b'.toM = petM b + {c} := by
  cases b with
  | none =>
      simp only [petFlatPush, Except.ok.injEq] at h
      subst h
      simp [petM, Bucket.toM, subcatsM]
  | some b0 =>
      cases b0 with
      | grouped m => simp [petFlatPush] at h
      | flat cs ex =>
          simp only [petFlatPush, Except.ok.injEq] at h
          subst h
          simp only [petM, Bucket.toM]
          rw [← Multiset.coe_add, ← Multiset.coe_singleton c]
          abel

theorem petGroupedPush_NE (b : Option Bucket) (sub : String) (c : Company)
    (h : ∀ b0, b = some b0 → BucketNE b0) : BucketNE (petGroupedPush b sub c) := by
  cases b with
  | none =>
      refine ⟨by simp, ?_⟩
      intro q hq
      simp only [petGroupedPush, List.mem_singleton] at hq
      simp [hq]
  | some b0 =>
      cases b0 with
      | grouped m =>
          have hb := h _ rfl
          exact ⟨pushAssoc_ne_nil _ _ _, pushAssoc_vals_ne_nil _ _ _ hb.2⟩
      | flat cs ex =>
          have hb := h _ rfl
          exact ⟨hb.1, pushAssoc_vals_ne_nil _ _ _ hb.2⟩

theorem petFlatPush_ok_NE (b : Option Bucket) (c : Company) (b' : Bucket)
    (h : petFlatPush b c = Except.ok b') (hb : ∀ b0, b = some b0 → BucketNE b0) :
    BucketNE b' := by
  cases b with
  | none =>
      simp only [petFlatPush, Except.ok.injEq] at h
      subst h
      exact ⟨by simp, by simp⟩
  | some b0 =>
      cases b0 with
      | grouped m => simp [petFlatPush] at h
      | flat cs ex =>
          simp only [petFlatPush, Except.ok.injEq] at h
          subst h
          exact ⟨by simp, (hb _ rfl).2⟩

theorem engineGroupedPush_vals (e : List (String × Bucket)) (sub : String) (c : Company)
    (hvals : ∀ p ∈ e,
      (p.1 = "Organizational Infrastructure" ∧ ∃ m, p.2 = Bucket.grouped m) ∨
      (p.1 ∈ engineFlatCats ∧ ∃ cs, p.2 = Bucket.flat cs [])) :
    ∀ p ∈ engineGroupedPush e sub c,
      (p.1 = "Organizational Infrastructure" ∧ ∃ m, p.2 = Bucket.grouped m) ∨
      (p.1 ∈ engineFlatCats ∧ ∃ cs, p.2 = Bucket.flat cs []) := by
  induction e with
  | nil =>
      intro p hp
      simp only [engineGroupedPush, List.mem_singleton] at hp
      subst hp
      exact Or.inl ⟨rfl, _, rfl⟩
  | cons q rest ih =>
      obtain ⟨k, b⟩ := q
      intro p hp
      by_cases hk : k = "Organizational Infrastructure"
      · cases b with
        | grouped m =>
            simp only [engineGroupedPush, if_pos hk, List.mem_cons] at hp
            rcases hp with hp1 | hp1
            · subst hp1
              exact Or.inl ⟨hk, _, rfl⟩
            · exact hvals _ (List.mem_cons_of_mem _ hp1)
        | flat cs ex =>
            exfalso
            rcases hvals (k, Bucket.flat cs ex) (List.mem_cons_self _ _) with
              ⟨_, m, hb⟩ | ⟨hfl, cs2, hb⟩
            · exact absurd hb (by simp)
            · rw [hk] at hfl
              simp [engineFlatCats] at hfl
      · simp only [engineGroupedPush, if_neg hk, List.mem_cons] at hp
        rcases hp with hp1 | hp1
        · subst hp1
          exact hvals _ (List.mem_cons_self _ _)
        · exact ih (fun q hq => hvals q (List.mem_cons_of_mem _ hq)) p hp1

theorem engineGroupedPush_WF (e : List (String × Bucket)) (sub : String) (c : Company)
    (h : EngineWF e) : EngineWF (engineGroupedPush e sub c) := by
  obtain ⟨hnd, hvals⟩ := h
  constructor
  · rw [engineGroupedPush_keys]
    by_cases hm : "Organizational Infrastructure" ∈ e.map Prod.fst
    · simp [hm, hnd]
    · simp [hm, List.Nodup.append hnd (List.nodup_singleton _)
        (by simpa [List.disjoint_singleton] using hm)]
  · exact engineGroupedPush_vals e sub c hvals

theorem placedB_false_of_unmapped (r : Row) (hm : categoryToPillar r.nCategory = none) :
    placedB r = false := by
  have h1 : r.nCategory ≠ "Research & Intelligence" := fun hh => by
    simp [categoryToPillar, hh] at hm
  have h2 : r.nCategory ≠ "Strategy & Creative Production" := fun hh => by
    simp [categoryToPillar, hh] at hm
  have h3 : r.nCategory ≠ "Field & Mobilization" := fun hh => by
    simp [categoryToPillar, hh] at hm
  have h4 : r.nCategory ≠ "Campaign Management & CRM" := fun hh => by
    simp [categoryToPillar, hh] at hm
  have h5 : r.nCategory ≠ "Fundraising & Payments" := fun hh => by
    simp [categoryToPillar, hh] at hm
  have h6 : r.nCategory ≠ "Organisational Infrastructure" := fun hh => by
    simp [categoryToPillar, hh] at hm
  have h7 : r.nCategory ≠ "Digital Comms & Advertising" := fun hh => by
    simp [categoryToPillar, hh] at hm
  have h8 : r.nCategory ≠ "Participation & Election Tech" := fun hh => by
    simp [categoryToPillar, hh] at hm
  simp [placedB, h1, h2, h3, h4, h5, h6, h7, h8]

/-! ### Case analysis of one loop iteration -/

/-- Every row falls into exactly one of the twelve behaviours of the loop
body; this elimination lemma performs that case split once for all the
fold invariants below. -/
theorem step_cases {motive : Except String State → Prop} (s : State) (r : Row)
    (hskip : (r.nEntity = "" ∨ r.nCategory = "") → motive (Except.ok s))
    (hunmapped : r.nEntity ≠ "" → r.nCategory ≠ "" → categoryToPillar r.nCategory = none →
      motive (Except.ok (addWarning s
        ("Warning: Category \"" ++ r.nCategory ++ "\" not mapped to any pillar"))))
    (hbrainP : r.nEntity ≠ "" →
      (r.nCategory = "Research & Intelligence" ∨ r.nCategory = "Strategy & Creative Production") →
      r.nSubcategory ≠ "" →
      motive (Except.ok { s with Brain := brainPush s.Brain r.nCategory r.nSubcategory (rowCompany r) }))
    (hbrainW : r.nEntity ≠ "" →
      (r.nCategory = "Research & Intelligence" ∨ r.nCategory = "Strategy & Creative Production") →
      r.nSubcategory = "" →
      motive (Except.ok (addWarning s
        ("Warning: " ++ r.nEntity ++ " in " ++ r.nCategory ++ " has no subcategory"))))
    (hoiP : r.nEntity ≠ "" → r.nCategory = "Organisational Infrastructure" →
      r.nSubcategory ≠ "" →
      motive (Except.ok { s with Engine := engineGroupedPush s.Engine r.nSubcategory (rowCompany r) }))
    (hoiW : r.nEntity ≠ "" → r.nCategory = "Organisational Infrastructure" →
      r.nSubcategory = "" →
      motive (Except.ok (addWarning s
        ("Warning: " ++ r.nEntity ++ " in " ++ r.nCategory ++ " has no subcategory"))))
    (hengF : r.nEntity ≠ "" →
      (r.nCategory = "Field & Mobilization" ∨ r.nCategory = "Campaign Management & CRM" ∨
       r.nCategory = "Fundraising & Payments") →
      motive ((engineFlatPush s.Engine r.nCategory (rowCompany r)).map fun e => { s with Engine := e }))
    (hdcaP : r.nEntity ≠ "" → r.nCategory = "Digital Comms & Advertising" →
      r.nSubcategory ≠ "" →
      motive (Except.ok
        { s with digitalCommsSubcats := pushAssoc s.digitalCommsSubcats r.nSubcategory (rowCompany r) }))
    (hdcaW : r.nEntity ≠ "" → r.nCategory = "Digital Comms & Advertising" →
      r.nSubcategory = "" →
      motive (Except.ok (addWarning s
        ("Warning: " ++ r.nEntity ++ " in Digital Comms & Advertising has no subcategory"))))
    (hpetP : r.nEntity ≠ "" → r.nCategory = "Participation & Election Tech" →
      r.nSubcategory ≠ "" →
      motive (Except.ok
        { s with MegaphonePET := some (petGroupedPush s.MegaphonePET r.nSubcategory (rowCompany r)) }))
    (hpetF : r.nEntity ≠ "" → r.nCategory = "Participation & Election Tech" →
      r.nSubcategory = "" →
      motive ((petFlatPush s.MegaphonePET (rowCompany r)).map fun b =>
        { s with MegaphonePET := some b }))
    (hmegD : r.nEntity ≠ "" →
      (r.nCategory = "Information Integrity & Defense" ∨ r.nCategory = "Social Media & Management") →
      motive (Except.ok s)) :
    motive (step s r) := by
  by_cases h0 : r.nEntity = "" ∨ r.nCategory = ""
  · simpa [step, h0] using hskip h0
  · push_neg at h0
    obtain ⟨he, hc⟩ := h0
    by_cases h1 : r.nCategory = "Research & Intelligence"
    · by_cases hs : r.nSubcategory = ""
      · simpa [step, he, hc, h1, categoryToPillar, hs, addWarning] using hbrainW he (Or.inl h1) hs
      · simpa [step, he, hc, h1, categoryToPillar, hs] using hbrainP he (Or.inl h1) hs
    by_cases h2 : r.nCategory = "Strategy & Creative Production"
    · by_cases hs : r.nSubcategory = ""
      · simpa [step, he, hc, h2, categoryToPillar, hs, addWarning] using hbrainW he (Or.inr h2) hs
      · simpa [step, he, hc, h2, categoryToPillar, hs] using hbrainP he (Or.inr h2) hs
    by_cases h3 : r.nCategory = "Field & Mobilization"
    · simpa [step, he, hc, h3, categoryToPillar] using hengF he (Or.inl h3)
    by_cases h4 : r.nCategory = "Campaign Management & CRM"
    · simpa [step, he, hc, h4, categoryToPillar] using hengF he (Or.inr (Or.inl h4))
    by_cases h5 : r.nCategory = "Fundraising & Payments"
    · simpa [step, he, hc, h5, categoryToPillar] using hengF he (Or.inr (Or.inr h5))
    by_cases h6 : r.nCategory = "Organisational Infrastructure"
    · by_cases hs : r.nSubcategory = ""
      · simpa [step, he, hc, h6, categoryToPillar, hs, addWarning] using hoiW he h6 hs
      · simpa [step, he, hc, h6, categoryToPillar, hs] using hoiP he h6 hs
    by_cases h7 : r.nCategory = "Digital Comms & Advertising"
    · by_cases hs : r.nSubcategory = ""
      · simpa [step, he, hc, h7, categoryToPillar, hs, addWarning] using hdcaW he h7 hs
      · simpa [step, he, hc, h7, categoryToPillar, hs] using hdcaP he h7 hs
    by_cases h8 : r.nCategory = "Information Integrity & Defense"
    · simpa [step, he, hc, h8, categoryToPillar] using hmegD he (Or.inl h8)
    by_cases h9 : r.nCategory = "Social Media & Management"
    · simpa [step, he, hc, h9, categoryToPillar] using hmegD he (Or.inr h9)
    by_cases h10 : r.nCategory = "Participation & Election Tech"
    · by_cases hs : r.nSubcategory = ""
      · simpa [step, he, hc, h10, categoryToPillar, hs] using hpetF he h10 hs
      · simpa [step, he, hc, h10, categoryToPillar, hs] using hpetP he h10 hs
    have hm : categoryToPillar r.nCategory = none := by
      simp [categoryToPillar, h1, h2, h3, h4, h5, h6, h7, h8, h9, h10]
    simpa [step, he, hc, hm, addWarning] using hunmapped he hc hm

/-! ### Per-step invariant preservation and company accounting -/

theorem step_ok_stateM (s : State) (r : Row) (hWF : StateWF s) :
    ∀ s2, step s r = Except.ok s2 →
      StateWF s2 ∧ stateM s2 = stateM s + (if placedB r then {rowCompany r} else 0) := by
  refine @step_cases
    (fun res => ∀ s2, res = Except.ok s2 →
      StateWF s2 ∧ stateM s2 = stateM s + (if placedB r then {rowCompany r} else 0))
    s r ?_ ?_ ?_ ?_ ?_ ?_ ?_ ?_ ?_ ?_ ?_ ?_
  · intro h s2 heq
    injection heq with h2
    subst h2
    have hpl : placedB r = false := by
      rcases h with he | hc
      · simp [placedB, he]
      · simp [placedB, hc]
    exact ⟨hWF, by simp [hpl]⟩
  · intro he hc hm s2 heq
    injection heq with h2
    subst h2
    refine ⟨hWF, ?_⟩
    simp [placedB_false_of_unmapped r hm, stateM, addWarning]
  · intro he hcat hs s2 heq
    injection heq with h2
    subst h2
    have hnd : (s.Brain.map Prod.fst).Nodup := by rw [hWF.1]; decide
    have hmem : r.nCategory ∈ s.Brain.map Prod.fst := by
      rw [hWF.1]
      rcases hcat with h | h <;> simp [h]
    have hbr : brainM (brainPush s.Brain r.nCategory r.nSubcategory (rowCompany r)) =
        brainM s.Brain + {rowCompany r} :=
      brainPush_sum s.Brain r.nCategory r.nSubcategory (rowCompany r) hnd hmem
    constructor
    · refine ⟨?_, hWF.2⟩
      show (brainPush s.Brain r.nCategory r.nSubcategory (rowCompany r)).map Prod.fst = _
      rw [brainPush_keys]
      exact hWF.1
    · have hpl : placedB r = true := by
        rcases hcat with h | h <;> simp [placedB, he, h, hs]
      simp only [stateM, hpl, if_true]
      show brainM (brainPush s.Brain r.nCategory r.nSubcategory (rowCompany r)) +
        engineM s.Engine + subcatsM s.digitalCommsSubcats + petM s.MegaphonePET = _
      rw [hbr]
      abel
  · intro he hcat hs s2 heq
    injection heq with h2
    subst h2
    refine ⟨hWF, ?_⟩
    have hpl : placedB r = false := by
      rcases hcat with h | h <;> simp [placedB, h, hs]
    simp [stateM, addWarning, hpl]
  · intro he hcat hs s2 heq
    injection heq with h2
    subst h2
    constructor
    · exact ⟨hWF.1, engineGroupedPush_WF _ _ _ hWF.2⟩
    · have hpl : placedB r = true := by simp [placedB, he, hcat, hs]
      have heng : engineM (engineGroupedPush s.Engine r.nSubcategory (rowCompany r)) =
          engineM s.Engine + {rowCompany r} :=
        engineGroupedPush_sum s.Engine r.nSubcategory (rowCompany r)
      simp only [stateM, hpl, if_true]
      show brainM s.Brain + engineM (engineGroupedPush s.Engine r.nSubcategory (rowCompany r)) +
        subcatsM s.digitalCommsSubcats + petM s.MegaphonePET = _
      rw [heng]
      abel
  · intro he hcat hs s2 heq
    injection heq with h2
    subst h2
    refine ⟨hWF, ?_⟩
    have hpl : placedB r = false := by simp [placedB, hcat, hs]
    simp [stateM, addWarning, hpl]
  · intro he hcat s2 heq
    cases hpush : engineFlatPush s.Engine r.nCategory (rowCompany r) with
    | error msg => rw [hpush] at heq; simp [Except.map] at heq
    | ok e2 =>
        rw [hpush] at heq
        simp only [Except.map] at heq
        injection heq with h2
        subst h2
        have hfc : r.nCategory ∈ engineFlatCats := by
          rcases hcat with h | h | h <;> simp [engineFlatCats, h]
        constructor
        · exact ⟨hWF.1, engineFlatPush_ok_WF _ _ _ _ hWF.2 hfc hpush⟩
        · have hpl : placedB r = true := by
            rcases hcat with h | h | h <;> simp [placedB, he, h]
          have heng : engineM e2 = engineM s.Engine + {rowCompany r} :=
            engineFlatPush_ok_sum _ _ _ _ hpush
          simp only [stateM, hpl, if_true]
          show brainM s.Brain + engineM e2 +
            subcatsM s.digitalCommsSubcats + petM s.MegaphonePET = _
          rw [heng]
          abel
  · intro he hcat hs s2 heq
    injection heq with h2
    subst h2
    constructor
    · exact ⟨hWF.1, hWF.2⟩
    · have hpl : placedB r = true := by simp [placedB, he, hcat, hs]
      simp only [stateM, hpl, if_true]
      show brainM s.Brain + engineM s.Engine +
        subcatsM (pushAssoc s.digitalCommsSubcats r.nSubcategory (rowCompany r)) +
        petM s.MegaphonePET = _
      rw [subcatsM_pushAssoc]
      abel
  · intro he hcat hs s2 heq
    injection heq with h2
    subst h2
    refine ⟨hWF, ?_⟩
    have hpl : placedB r = false := by simp [placedB, hcat, hs]
    simp [stateM, addWarning, hpl]
  · intro he hcat hs s2 heq
    injection heq with h2
    subst h2
    constructor
    · exact ⟨hWF.1, hWF.2⟩
    · have hpl : placedB r = true := by simp [placedB, he, hcat]
      simp only [stateM, hpl, if_true]
      show brainM s.Brain + engineM s.Engine + subcatsM s.digitalCommsSubcats +
        petM (some (petGroupedPush s.MegaphonePET r.nSubcategory (rowCompany r))) = _
      show brainM s.Brain + engineM s.Engine + subcatsM s.digitalCommsSubcats +
        (petGroupedPush s.MegaphonePET r.nSubcategory (rowCompany r)).toM = _
      rw [petGroupedPush_toM]
      abel
  · intro he hcat hs s2 heq
    cases hpush : petFlatPush s.MegaphonePET (rowCompany r) with
    | error msg => rw [hpush] at heq; simp [Except.map] at heq
    | ok b2 =>
        rw [hpush] at heq
        simp only [Except.map] at heq
        injection heq with h2
        subst h2
        constructor
        · exact ⟨hWF.1, hWF.2⟩
        · have hpl : placedB r = true := by simp [placedB, he, hcat]
          simp only [stateM, hpl, if_true]
          show brainM s.Brain + engineM s.Engine + subcatsM s.digitalCommsSubcats +
            petM (some b2) = _
          show brainM s.Brain + engineM s.Engine + subcatsM s.digitalCommsSubcats +
            b2.toM = _
          rw [petFlatPush_ok_toM s.MegaphonePET (rowCompany r) b2 hpush]
          abel
  · intro he hcat s2 heq
    injection heq with h2
    subst h2
    refine ⟨hWF, ?_⟩
    have hpl : placedB r = false := by
      rcases hcat with h | h <;> simp [placedB, h]
    simp [hpl]

theorem step_pet_ok (mode : Bool) (s : State) (r : Row) (hWF : StateWF s)
    (hP : PETWF mode s.MegaphonePET)
    (hr : isPETRow r = true → (if mode then r.nSubcategory ≠ "" else r.nSubcategory = "")) :
    ∃ s2, step s r = Except.ok s2 ∧ PETWF mode s2.MegaphonePET := by
  refine @step_cases
    (fun res => ∃ s2, res = Except.ok s2 ∧ PETWF mode s2.MegaphonePET) s r
    ?_ ?_ ?_ ?_ ?_ ?_ ?_ ?_ ?_ ?_ ?_ ?_
  · intro h
    exact ⟨s, rfl, hP⟩
  · intro he hc hm
    exact ⟨_, rfl, hP⟩
  · intro he hcat hs
    exact ⟨_, rfl, hP⟩
  · intro he hcat hs
    exact ⟨_, rfl, hP⟩
  · intro he hcat hs
    exact ⟨_, rfl, hP⟩
  · intro he hcat hs
    exact ⟨_, rfl, hP⟩
  · intro he hcat
    have hfc : r.nCategory ∈ engineFlatCats := by
      rcases hcat with h | h | h <;> simp [engineFlatCats, h]
    obtain ⟨e2, he2⟩ := engineFlatPush_exists s.Engine r.nCategory (rowCompany r) hWF.2 hfc
    exact ⟨{ s with Engine := e2 }, by rw [he2]; rfl, hP⟩
  · intro he hcat hs
    exact ⟨_, rfl, hP⟩
  · intro he hcat hs
    exact ⟨_, rfl, hP⟩
  · intro he hcat hs
    have hpet : isPETRow r = true := by simp [isPETRow, he, hcat]
    have hmode : mode = true := by
      cases mode with
      | false => exact absurd (by simpa using hr hpet) hs
      | true => rfl
    subst hmode
    refine ⟨_, rfl, ?_⟩
    show PETWF true (some (petGroupedPush s.MegaphonePET r.nSubcategory (rowCompany r)))
    cases hb : s.MegaphonePET with
    | none => simp [petGroupedPush, PETWF]
    | some b0 =>
        cases b0 with
        | grouped m => simp [petGroupedPush, PETWF]
        | flat cs ex =>
            rw [hb] at hP
            exact absurd hP.1 (by simp)
  · intro he hcat hs
    have hpet : isPETRow r = true := by simp [isPETRow, he, hcat]
    have hmode : mode = false := by
      cases mode with
      | true => exact absurd hs (by simpa using hr hpet)
      | false => rfl
    subst hmode
    cases hb : s.MegaphonePET with
    | none =>
        refine ⟨{ s with MegaphonePET := some (Bucket.flat [rowCompany r] []) }, ?_, ?_⟩
        · rfl
        · simp [PETWF]
    | some b0 =>
        cases b0 with
        | grouped m =>
            rw [hb] at hP
            exact absurd hP (by simp [PETWF])
        | flat cs ex =>
            rw [hb] at hP
            obtain ⟨hm0, hex⟩ := hP
            subst hex
            refine ⟨{ s with MegaphonePET := some (Bucket.flat (cs ++ [rowCompany r]) []) }, ?_, ?_⟩
            · rfl
            · simp [PETWF]
  · intro he hcat
    exact ⟨s, rfl, hP⟩

/-- Folding the loop over a list of rows whose Participation & Election
Tech rows agree with `mode` always succeeds, preserves the invariants and
accumulates exactly the placed companies. -/
theorem foldlM_step_ok (mode : Bool) (rows : List Row) (s : State)
    (hWF : StateWF s) (hP : PETWF mode s.MegaphonePET)
    (hrows : ∀ r ∈ rows, isPETRow r = true →
      (if mode then r.nSubcategory ≠ "" else r.nSubcategory = "")) :
    ∃ s2, List.foldlM step s rows = Except.ok s2 ∧ StateWF s2 ∧
      PETWF mode s2.MegaphonePET ∧ stateM s2 = stateM s + placedM rows := by
  induction rows generalizing s with
  | nil => exact ⟨s, rfl, hWF, hP, by simp [placedM]⟩
  | cons r rs ih =>
      obtain ⟨s1, hs1, hP1⟩ := step_pet_ok mode s r hWF hP (hrows r (List.mem_cons_self _ _))
      obtain ⟨hWF1, hacc⟩ := step_ok_stateM s r hWF s1 hs1
      obtain ⟨s2, hs2, hWF2, hP2, hacc2⟩ :=
        ih s1 hWF1 hP1 (fun q hq => hrows q (List.mem_cons_of_mem _ hq))
      refine ⟨s2, ?_, hWF2, hP2, ?_⟩
      · rw [List.foldlM_cons, hs1]
        simpa using hs2
      · rw [hacc2, hacc]
        have hm : placedM (r :: rs) = (if placedB r then {rowCompany r} else 0) + placedM rs := by
          by_cases hp : placedB r
          · simp only [placedM, List.filter_cons, hp, if_true, List.map_cons]
            rw [← Multiset.cons_coe]
            simp [hp]
          · simp [placedM, List.filter_cons, hp]
        rw [hm]
        abel

/-! ### Serialization preserves the stored companies -/

theorem lookupStr_cons_filterMap {α : Type} (e2 : List (String × α)) (k0 : String) (v0 : α)
    (ks : List String) (hnd : ks.Nodup) (hk0 : k0 ∈ ks) (hnone : lookupStr e2 k0 = none) :
    (ks.filterMap fun k => lookupStr ((k0, v0) :: e2) k).Perm
      (v0 :: ks.filterMap fun k => lookupStr e2 k) := by
  induction ks with
  | nil => simp at hk0
  | cons x ks2 ih =>
      simp only [List.nodup_cons] at hnd
      by_cases hx : x = k0
      · subst hx
        have hcong : ∀ y ∈ ks2, lookupStr ((x, v0) :: e2) y = lookupStr e2 y := by
          intro y hy
          have hxy : ¬ (x = y) := fun hh => hnd.1 (hh ▸ hy)
          simp [lookupStr, hxy]
        have hsome : lookupStr ((x, v0) :: e2) x = some v0 := by simp [lookupStr]
        rw [List.filterMap_cons_some hsome, List.filterMap_cons_none hnone,
          List.filterMap_congr hcong]
      · have hk02 : k0 ∈ ks2 := by
          rcases List.mem_cons.mp hk0 with h | h
          · exact absurd h.symm hx
          · exact h
        have hlx : lookupStr ((k0, v0) :: e2) x = lookupStr e2 x := by
          have hkx : ¬ (k0 = x) := fun hh => hx hh.symm
          simp [lookupStr, hkx]
        cases hv : lookupStr e2 x with
        | none =>
            rw [List.filterMap_cons_none (hlx.trans hv),
              List.filterMap_cons_none hv]
            exact ih hnd.2 hk02
        | some v =>
            rw [List.filterMap_cons_some (hlx.trans hv),
              List.filterMap_cons_some hv]
            exact List.Perm.trans (List.Perm.cons v (ih hnd.2 hk02)) (List.Perm.swap v0 v _)

theorem lookupStr_filterMap_perm {α : Type} (e : List (String × α)) (ks : List String)
    (hks : ks.Nodup) (hnd : (e.map Prod.fst).Nodup) (hsub : ∀ p ∈ e, p.1 ∈ ks) :
    (ks.filterMap fun k => lookupStr e k).Perm (e.map Prod.snd) := by
  induction e with
  | nil =>
      have h0 : ∀ ks2 : List String,
          (ks2.filterMap fun k => lookupStr ([] : List (String × α)) k) = [] := by
        intro ks2
        induction ks2 with
        | nil => rfl
        | cons x ks3 ih2 => rw [List.filterMap_cons_none rfl]; exact ih2
      rw [h0]
      simp
  | cons p e2 ih =>
      obtain ⟨k0, v0⟩ := p
      simp only [List.map_cons, List.nodup_cons] at hnd
      have hnone : lookupStr e2 k0 = none := lookupStr_eq_none e2 k0 hnd.1
      have hk0 : k0 ∈ ks := hsub (k0, v0) (List.mem_cons_self _ _)
      refine List.Perm.trans (lookupStr_cons_filterMap e2 k0 v0 ks hks hk0 hnone) ?_
      exact List.Perm.cons v0 (ih hnd.2 (fun q hq => hsub q (List.mem_cons_of_mem _ hq)))

theorem catValueM_toCatValue (b : Bucket)
    (h : ∀ cs ex, b = Bucket.flat cs ex → ex = []) :
    catValueM b.toCatValue = b.toM := by
  cases b with
  | flat cs ex =>
      have hex : ex = [] := h cs ex rfl
      subst hex
      simp [catValueM, Bucket.toCatValue, Bucket.toM, subcatsM]
  | grouped m => rfl

theorem pillarM_append (l1 l2 : List (String × CatValue)) :
    pillarM (l1 ++ l2) = pillarM l1 + pillarM l2 := by
  simp [pillarM]

/-- Serializing a well-formed state emits exactly the companies it stores
(with a Participation slot carrying no named array properties). -/
theorem serialize_leavesM (s : State) (hWF : StateWF s)
    (hpet : ∀ cs ex, s.MegaphonePET = some (Bucket.flat cs ex) → ex = []) :
    leavesM (serialize s) = stateM s := by
  have hbrain : pillarM ((serialize s).Brain) = brainM s.Brain := by
    simp only [serialize, pillarM, brainM, List.map_map]
    congr 1
  have hengine : pillarM ((serialize s).Engine) = engineM s.Engine := by
    obtain ⟨hnd, hvals⟩ := hWF.2
    have hperm : (engineOrder.filterMap fun k => lookupStr s.Engine k).Perm
        (s.Engine.map Prod.snd) :=
      lookupStr_filterMap_perm s.Engine engineOrder (by decide) hnd
        (by
          intro p hp
          rcases hvals p hp with ⟨hoi, _⟩ | ⟨hfl, _⟩
          · rw [hoi]; simp [engineOrder]
          · simp only [engineFlatCats, List.mem_cons, List.not_mem_nil, or_false] at hfl
            rcases hfl with h | h | h <;> rw [h] <;> simp [engineOrder])
    have hmapfm : (serialize s).Engine =
        engineOrder.filterMap fun k => (lookupStr s.Engine k).map fun b => (k, b.toCatValue) := rfl
    have h1 : pillarM ((serialize s).Engine) =
        ((engineOrder.filterMap fun k => lookupStr s.Engine k).map
          (fun b => catValueM b.toCatValue)).sum := by
      rw [hmapfm]
      simp only [pillarM, List.map_filterMap]
      congr 1
      apply List.filterMap_congr
      intro k hk
      cases lookupStr s.Engine k <;> rfl
    have h2 : ((engineOrder.filterMap fun k => lookupStr s.Engine k).map
        (fun b => catValueM b.toCatValue)).sum =
        ((s.Engine.map Prod.snd).map (fun b => catValueM b.toCatValue)).sum :=
      List.Perm.sum_eq (List.Perm.map _ hperm)
    have h3 : ((s.Engine.map Prod.snd).map (fun b => catValueM b.toCatValue)).sum =
        engineM s.Engine := by
      simp only [engineM, List.map_map]
      congr 1
      apply List.map_congr_left
      intro p hp
      rcases hvals p hp with ⟨_, m, hb⟩ | ⟨_, cs, hb⟩
      · simp [Function.comp, hb, catValueM, Bucket.toCatValue, Bucket.toM]
      · simp [Function.comp, hb, catValueM, Bucket.toCatValue, Bucket.toM, subcatsM]
    rw [h1, h2, h3]
  have hmega : pillarM ((serialize s).Megaphone) =
      subcatsM s.digitalCommsSubcats + petM s.MegaphonePET := by
    have hm : (serialize s).Megaphone =
        (if s.digitalCommsSubcats ≠ [] then
          [("Digital Communications and Advertising",
            CatValue.grouped (s.digitalCommsSubcats.filter fun p => p.2 ≠ []))]
         else []) ++
        (match s.MegaphonePET with
         | none => []
         | some b => [("Participation & Election Tech", b.toCatValue)]) := rfl
    rw [hm, pillarM_append]
    congr 1
    · by_cases hd : s.digitalCommsSubcats = []
      · simp [hd, pillarM, subcatsM]
      · simp only [hd, ne_eq, not_false_iff, if_true, pillarM, List.map_cons, List.map_nil,
          List.sum_cons, List.sum_nil, catValueM]
        rw [subcatsM_filter_ne_nil]
        simp
    · cases hb : s.MegaphonePET with
      | none => simp [pillarM, petM]
      | some b0 =>
          simp only [pillarM, List.map_cons, List.map_nil, List.sum_cons, List.sum_nil, petM]
          rw [catValueM_toCatValue b0 (fun cs ex hcs => hpet cs ex (hb ▸ hcs ▸ hb.symm ▸ rfl))]
          · simp
  show pillarM ((serialize s).Brain) + pillarM ((serialize s).Engine) +
    pillarM ((serialize s).Megaphone) = _
  rw [hbrain, hengine, hmega, stateM]
  abel

theorem StateWF_initState : StateWF initState :=
  ⟨rfl, by simp [EngineWF, initState]⟩

theorem stateM_initState : stateM initState = 0 := rfl

theorem run_ok_iff (rows : List Row) (out : PillarStructure) (warns : List String) :
    run rows = Except.ok (out, warns) ↔
      ∃ s2, List.foldlM step initState rows = Except.ok s2 ∧
        out = serialize s2 ∧ warns = s2.warnings := by
  constructor
  · intro h
    cases hf : List.foldlM step initState rows with
    | error msg => rw [run, hf] at h; simp [Except.map] at h
    | ok s2 =>
        rw [run, hf] at h
        simp only [Except.map, Except.ok.injEq] at h
        exact ⟨s2, rfl, congrArg Prod.fst h.symm, congrArg Prod.snd h.symm⟩
  · rintro ⟨s2, hf, rfl, rfl⟩
    rw [run, hf]
    rfl

theorem step_error_msg (s : State) (r : Row) (hWF : StateWF s) :
    ∀ msg, step s r = Except.error msg →
      msg = "TypeError: companiesByPillar.Megaphone[Participation & Election Tech].push is not a function" := by
  refine @step_cases
    (fun res => ∀ msg, res = Except.error msg →
      msg = "TypeError: companiesByPillar.Megaphone[Participation & Election Tech].push is not a function")
    s r ?_ ?_ ?_ ?_ ?_ ?_ ?_ ?_ ?_ ?_ ?_ ?_
  · intro h msg heq
    exact absurd heq (by simp)
  · intro he hc hm msg heq
    exact absurd heq (by simp)
  · intro he hcat hs msg heq
    exact absurd heq (by simp)
  · intro he hcat hs msg heq
    exact absurd heq (by simp)
  · intro he hcat hs msg heq
    exact absurd heq (by simp)
  · intro he hcat hs msg heq
    exact absurd heq (by simp)
  · intro he hcat msg heq
    have hfc : r.nCategory ∈ engineFlatCats := by
      rcases hcat with h | h | h <;> simp [engineFlatCats, h]
    obtain ⟨e2, he2⟩ := engineFlatPush_exists s.Engine r.nCategory (rowCompany r) hWF.2 hfc
    rw [he2] at heq
    exact absurd heq (by simp [Except.map])
  · intro he hcat hs msg heq
    exact absurd heq (by simp)
  · intro he hcat hs msg heq
    exact absurd heq (by simp)
  · intro he hcat hs msg heq
    exact absurd heq (by simp)
  · intro he hcat hs msg heq
    cases hb : s.MegaphonePET with
    | none =>
        rw [hb] at heq
        exact absurd heq (by simp [petFlatPush, Except.map])
    | some b0 =>
        cases b0 with
        | flat cs ex =>
            rw [hb] at heq
            exact absurd heq (by simp [petFlatPush, Except.map])
        | grouped m =>
            rw [hb] at heq
            simp only [petFlatPush, Except.map, Except.error.injEq] at heq
            exact heq.symm
  · intro he hcat msg heq
    exact absurd heq (by simp)

theorem foldlM_error_msg (rows : List Row) (s : State) (hWF : StateWF s) :
    ∀ msg, List.foldlM step s rows = Except.error msg →
      msg = "TypeError: companiesByPillar.Megaphone[Participation & Election Tech].push is not a function" := by
  induction rows generalizing s with
  | nil =>
      intro msg heq
      exact absurd heq (by simp [pure, Except.pure])
  | cons r rs ih =>
      intro msg heq
      rw [List.foldlM_cons] at heq
      cases hstep : step s r with
      | error m0 =>
          rw [hstep] at heq
          have hm0 : m0 = msg := by
            have : (Except.error m0 : Except String State) >>= (fun s1 => List.foldlM step s1 rs) =
                Except.error m0 := rfl
            rw [this] at heq
            exact Except.error.inj heq
          exact hm0 ▸ step_error_msg s r hWF m0 hstep
      | ok s1 =>
          rw [hstep] at heq
          obtain ⟨hWF1, _⟩ := step_ok_stateM s r hWF s1 hstep
          exact ih s1 hWF1 msg (by simpa using heq)

/-! ## Claim theorems -/

/-- C1, counterexample to the claim as stated: the row (entity "Acme",
category "Social Media & Management") has a non-empty entity and a category
present in the mapping table (it maps to the Megaphone pillar with no
canonical category), yet its company reaches no leaf: the run succeeds and
the output holds zero companies instead of exactly one. -/
theorem C1_counterexample :
    (categoryToPillar (normalize "Social Media & Management")).isSome = true ∧
    normalize "Acme" ≠ "" ∧
    run [{ entity := "Acme", category := "Social Media & Management" }] =
      Except.ok
        ({ Brain := [("Research & Intelligence", CatValue.grouped []),
                     ("Strategy & Creative Production", CatValue.grouped [])],
           Engine := [], Megaphone := [] }, []) ∧
    leavesM
        { Brain := [("Research & Intelligence", CatValue.grouped []),
                    ("Strategy & Creative Production", CatValue.grouped [])],
          Engine := [], Megaphone := [] } = 0 :=
  ⟨by decide, by decide, rfl, rfl⟩

/-- C1 (amended): placement uniqueness holds for every input whose
Participation & Election Tech rows agree on subcategory presence, and for
the rows the code actually places: rows with non-empty entity whose
category is in the mapping table, is not one of the two unrouted Megaphone
categories (Information Integrity & Defense, Social Media & Management),
and carries a subcategory whenever the category requires one.  The run then
succeeds and the multiset of companies in the output leaves equals the
multiset of companies derived from those rows — each placed row yields
exactly one company in exactly one leaf, no duplication, no loss. -/
theorem C1_placement_uniqueness (rows : List Row) (h : PETUniform rows) :
    ∃ out warns, run rows = Except.ok (out, warns) ∧ leavesM out = placedM rows := by
  rcases h with hmode | hmode
  · obtain ⟨s2, hs2, hWF2, hP2, hacc⟩ :=
      foldlM_step_ok true rows initState StateWF_initState trivial
        (fun r hr hp => by simpa using hmode r hr hp)
    refine ⟨serialize s2, s2.warnings, ?_, ?_⟩
    · rw [run, hs2]; rfl
    · have hex : ∀ cs ex, s2.MegaphonePET = some (Bucket.flat cs ex) → ex = [] := by
        intro cs ex hb
        rw [hb] at hP2
        exact absurd hP2.1 (by simp)
      rw [serialize_leavesM s2 hWF2 hex, hacc, stateM_initState, zero_add]
  · obtain ⟨s2, hs2, hWF2, hP2, hacc⟩ :=
      foldlM_step_ok false rows initState StateWF_initState trivial
        (fun r hr hp => by simpa using hmode r hr hp)
    refine ⟨serialize s2, s2.warnings, ?_, ?_⟩
    · rw [run, hs2]; rfl
    · have hex : ∀ cs ex, s2.MegaphonePET = some (Bucket.flat cs ex) → ex = [] := by
        intro cs ex hb
        rw [hb] at hP2
        exact hP2.2
      rw [serialize_leavesM s2 hWF2 hex, hacc, stateM_initState, zero_add]

/-- C1 witness: the amended theorem applied to a concrete one-row input. -/
theorem C1_placement_uniqueness_witness :
    ∃ out warns,
      run [{ entity := "Acme", category := "Field & Mobilization", domain := "acme.io" }] =
        Except.ok (out, warns) ∧
      leavesM out =
        placedM [{ entity := "Acme", category := "Field & Mobilization", domain := "acme.io" }] :=
  C1_placement_uniqueness _ (Or.inl (by decide))

/-- C2, counterexample to the claim as stated: a subcategory-bearing
Participation & Election Tech row followed by a subcategory-less one makes
the loop call `.push` on a plain object: the run throws a TypeError and
aborts without writing anything — a placement failure that is neither a
warning nor a skip, and a second fatal error besides missing source
files. -/
theorem C2_counterexample :
    runScript (some
      [{ entity := "G", category := "Participation & Election Tech", subCategory := "Polling" },
       { entity := "F", category := "Participation & Election Tech" }]) =
      Except.error
        "TypeError: companiesByPillar.Megaphone[Participation & Election Tech].push is not a function" :=
  rfl

/-- C2 (amended): the run always completes and writes the output whenever
the Participation & Election Tech rows of the input agree on subcategory
presence (per-row placement failures are then warn-and-skip, or the silent
skip of the two unrouted Megaphone categories); the absence of both source
files is fatal; and the only other fatal error of the transform is the
TypeError thrown when a subcategory-less Participation & Election Tech row
is processed after a subcategory-bearing one. -/
theorem C2_nonfatal :
    (∀ rows, PETUniform rows →
      ∃ out warns, runScript (some rows) = Except.ok (out, warns)) ∧
    runScript none = Except.error "Neither map_data.xlsx nor map_data.csv found" ∧
    (∀ rows msg, runScript (some rows) = Except.error msg →
      msg = "TypeError: companiesByPillar.Megaphone[Participation & Election Tech].push is not a function") := by
  refine ⟨?_, rfl, ?_⟩
  · intro rows h
    rcases h with hmode | hmode
    · obtain ⟨s2, hs2, _, _, _⟩ :=
        foldlM_step_ok true rows initState StateWF_initState trivial
          (fun r hr hp => by simpa using hmode r hr hp)
      refine ⟨serialize s2, s2.warnings, ?_⟩
      show run rows = _
      rw [run, hs2]
      rfl
    · obtain ⟨s2, hs2, _, _, _⟩ :=
        foldlM_step_ok false rows initState StateWF_initState trivial
          (fun r hr hp => by simpa using hmode r hr hp)
      refine ⟨serialize s2, s2.warnings, ?_⟩
      show run rows = _
      rw [run, hs2]
      rfl
  · intro rows msg h
    have h2 : run rows = Except.error msg := h
    cases hf : List.foldlM step initState rows with
    | ok s2 =>
        rw [run, hf] at h2
        exact absurd h2 (by simp [Except.map])
    | error m0 =>
        rw [run, hf] at h2
        have hm : m0 = msg := by simpa [Except.map] using h2
        exact hm ▸ foldlM_error_msg rows initState StateWF_initState m0 hf

/-- C2 witness: the amended theorem applied to a concrete one-row input. -/
theorem C2_nonfatal_witness :
    ∃ out warns,
      runScript (some [{ entity := "Acme", category := "Field & Mobilization" }]) =
        Except.ok (out, warns) :=
  C2_nonfatal.1 _ (Or.inl (by decide))

/-- C3, counterexample to the claim as stated: a row with entity "Acme" and
a category that is blank after trimming is skipped, but the run emits NO
warning (the warnings list of the run is empty), not "exactly one warning
naming the entity": line 84 bundles the empty-category check into the same
silent `continue` as the empty-entity check. -/
theorem C3_counterexample :
    run [{ entity := "Acme", category := "   " }] =
      Except.ok
        ({ Brain := [("Research & Intelligence", CatValue.grouped []),
                     ("Strategy & Creative Production", CatValue.grouped [])],
           Engine := [], Megaphone := [] }, []) :=
  rfl

/-- C3 (amended): a row whose entity is non-empty but whose category is
empty after trimming contributes nothing to the output and emits no
warning — it is skipped silently, exactly like a blank row. -/
theorem C3_required_field_skip (s : State) (r : Row)
    (_he : r.nEntity ≠ "") (hc : r.nCategory = "") : step s r = Except.ok s := by
  simp [step, hc]

/-- C3 witness: the amended theorem applied to a concrete row and state. -/
theorem C3_required_field_skip_witness :
    step initState { entity := "Acme", category := "  " } = Except.ok initState :=
  C3_required_field_skip initState _ (by decide) (by decide)

/-- C5: rows with category "Information Integrity & Defense" or "Social
Media & Management" are present in the mapping table (routed to Megaphone
with no canonical category), yet the loop body returns the state unchanged:
no bucket is touched and no warning is emitted — the row is dropped
silently. -/
theorem C5_unrouted_silent_drop (s : State) (r : Row) (he : r.nEntity ≠ "")
    (hcat : r.nCategory = "Information Integrity & Defense" ∨
            r.nCategory = "Social Media & Management") :
    categoryToPillar r.nCategory = some ("Megaphone", none) ∧ step s r = Except.ok s := by
  constructor
  · rcases hcat with h | h <;> simp [categoryToPillar, h]
  · rcases hcat with h | h <;> simp [step, he, h, categoryToPillar]

/-- C5 witness: the theorem applied to a concrete row and state. -/
theorem C5_unrouted_silent_drop_witness :
    step initState { entity := "Acme", category := "Social Media & Management" } =
      Except.ok initState :=
  (C5_unrouted_silent_drop initState _ (by decide) (Or.inr (by decide))).2

/-! ### Nonemptiness preservation, for the no-empty-leaves claim -/

theorem CatNonempty_toCatValue (b : Bucket) (h : BucketNE b) :
    CatNonempty b.toCatValue := by
  cases b with
  | flat cs ex => exact h.1
  | grouped m => exact h

theorem StateNE_initState : StateNE initState := by
  refine ⟨?_, ?_, ?_, ?_⟩ <;> simp [initState]

theorem step_ok_StateNE (s : State) (r : Row) (hNE : StateNE s) :
    ∀ s2, step s r = Except.ok s2 → StateNE s2 := by
  refine @step_cases (fun res => ∀ s2, res = Except.ok s2 → StateNE s2) s r
    ?_ ?_ ?_ ?_ ?_ ?_ ?_ ?_ ?_ ?_ ?_ ?_
  · intro h s2 heq
    injection heq with h2
    subst h2
    exact hNE
  · intro he hc hm s2 heq
    injection heq with h2
    subst h2
    exact hNE
  · intro he hcat hs s2 heq
    injection heq with h2
    subst h2
    exact ⟨brainPush_vals_ne_nil _ _ _ _ hNE.1, hNE.2.1, hNE.2.2.1, hNE.2.2.2⟩
  · intro he hcat hs s2 heq
    injection heq with h2
    subst h2
    exact hNE
  · intro he hcat hs s2 heq
    injection heq with h2
    subst h2
    exact ⟨hNE.1, engineGroupedPush_NE _ _ _ hNE.2.1, hNE.2.2.1, hNE.2.2.2⟩
  · intro he hcat hs s2 heq
    injection heq with h2
    subst h2
    exact hNE
  · intro he hcat s2 heq
    cases hpush : engineFlatPush s.Engine r.nCategory (rowCompany r) with
    | error msg => rw [hpush] at heq; exact absurd heq (by simp [Except.map])
    | ok e2 =>
        rw [hpush] at heq
        simp only [Except.map] at heq
        injection heq with h2
        subst h2
        exact ⟨hNE.1, engineFlatPush_ok_NE _ _ _ _ hNE.2.1 hpush, hNE.2.2.1, hNE.2.2.2⟩
  · intro he hcat hs s2 heq
    injection heq with h2
    subst h2
    exact ⟨hNE.1, hNE.2.1, pushAssoc_vals_ne_nil _ _ _ hNE.2.2.1, hNE.2.2.2⟩
  · intro he hcat hs s2 heq
    injection heq with h2
    subst h2
    exact hNE
  · intro he hcat hs s2 heq
    injection heq with h2
    subst h2
    refine ⟨hNE.1, hNE.2.1, hNE.2.2.1, ?_⟩
    intro b hb
    injection hb with hb2
    subst hb2
    exact petGroupedPush_NE _ _ _ hNE.2.2.2
  · intro he hcat hs s2 heq
    cases hpush : petFlatPush s.MegaphonePET (rowCompany r) with
    | error msg => rw [hpush] at heq; exact absurd heq (by simp [Except.map])
    | ok b2 =>
        rw [hpush] at heq
        simp only [Except.map] at heq
        injection heq with h2
        subst h2
        refine ⟨hNE.1, hNE.2.1, hNE.2.2.1, ?_⟩
        intro b hb
        injection hb with hb2
        subst hb2
        exact petFlatPush_ok_NE _ _ _ hpush hNE.2.2.2
  · intro he hcat s2 heq
    injection heq with h2
    subst h2
    exact hNE

/-- Invariants preserved along a whole successful fold. -/
theorem foldlM_ok_inv (rows : List Row) (s s2 : State)
    (h : List.foldlM step s rows = Except.ok s2) (hWF : StateWF s) (hNE : StateNE s) :
    StateWF s2 ∧ StateNE s2 := by
  induction rows generalizing s with
  | nil =>
      have h2 : (Except.ok s : Except String State) = Except.ok s2 := h
      injection h2 with h3
      subst h3
      exact ⟨hWF, hNE⟩
  | cons r rs ih =>
      rw [List.foldlM_cons] at h
      cases hstep : step s r with
      | error m =>
          rw [hstep] at h
          have herr : (Except.error m : Except String State) >>=
              (fun s1 => List.foldlM step s1 rs) = Except.error m := rfl
          rw [herr] at h
          exact absurd h (by simp)
      | ok s1 =>
          rw [hstep] at h
          have h1 : List.foldlM step s1 rs = Except.ok s2 := by simpa using h
          exact ih s1 h1 (step_ok_stateM s r hWF s1 hstep).1 (step_ok_StateNE s r hNE s1 hstep)

/-- C4, counterexample to the claim as stated: on an input with zero valid
rows, the two Brain categories are still emitted, each with an empty map as
its value — category keys with empty values do appear, and a category that
received zero valid rows is not omitted. -/
theorem C4_counterexample :
    run [] =
      Except.ok
        ({ Brain := [("Research & Intelligence", CatValue.grouped []),
                     ("Strategy & Creative Production", CatValue.grouped [])],
           Engine := [], Megaphone := [] }, []) :=
  rfl

/-- C4 (amended): no Engine or Megaphone category and no subcategory
anywhere is ever emitted with an empty list or map — a dynamic category
that received zero valid rows is omitted; the exception is the Brain
pillar, whose two pre-created categories are always emitted, as empty maps
when they received no rows (their subcategory lists, when present, are
non-empty). -/
theorem C4_no_empty_leaves (rows : List Row) (out : PillarStructure) (warns : List String)
    (h : run rows = Except.ok (out, warns)) :
    out.Brain.map Prod.fst = ["Research & Intelligence", "Strategy & Creative Production"] ∧
    (∀ p ∈ out.Brain, ∀ m, p.2 = CatValue.grouped m → ∀ q ∈ m, q.2 ≠ []) ∧
    (∀ p ∈ out.Engine, CatNonempty p.2) ∧
    (∀ p ∈ out.Megaphone, CatNonempty p.2) := by
  obtain ⟨s2, hf, ho, hw⟩ := (run_ok_iff rows out warns).mp h
  subst ho
  obtain ⟨hWF2, hNE2⟩ := foldlM_ok_inv rows initState s2 hf StateWF_initState StateNE_initState
  refine ⟨?_, ?_, ?_, ?_⟩
  · show ((s2.Brain.map fun p => (p.1, CatValue.grouped p.2)).map Prod.fst) = _
    rw [List.map_map]
    exact hWF2.1
  · intro p hp m hm q hq
    obtain ⟨p0, hp0, hpe⟩ := List.mem_map.mp hp
    subst hpe
    simp only at hm
    injection hm with hm2
    subst hm2
    exact hNE2.1 p0 hp0 q hq
  · intro p hp
    obtain ⟨k, hk, hkp⟩ := List.mem_filterMap.mp hp
    cases hlk : lookupStr s2.Engine k with
    | none => rw [hlk] at hkp; simp at hkp
    | some b =>
        rw [hlk] at hkp
        simp only [Option.map_some', Option.some.injEq] at hkp
        subst hkp
        exact CatNonempty_toCatValue b (hNE2.2.1 (k, b) (lookupStr_mem _ _ _ hlk))
  · intro p hp
    have hm : (serialize s2).Megaphone =
        (if s2.digitalCommsSubcats ≠ [] then
          [("Digital Communications and Advertising",
            CatValue.grouped (s2.digitalCommsSubcats.filter fun p => p.2 ≠ []))]
         else []) ++
        (match s2.MegaphonePET with
         | none => []
         | some b => [("Participation & Election Tech", b.toCatValue)]) := rfl
    rw [hm] at hp
    rcases List.mem_append.mp hp with hp1 | hp1
    · by_cases hd : s2.digitalCommsSubcats = []
      · simp [hd] at hp1
      · simp only [hd, ne_eq, not_false_iff, if_true, List.mem_singleton] at hp1
        subst hp1
        show CatNonempty (CatValue.grouped (s2.digitalCommsSubcats.filter fun p => p.2 ≠ []))
        rw [filter_vals_ne_nil _ hNE2.2.2.1]
        exact ⟨hd, hNE2.2.2.1⟩
    · cases hb : s2.MegaphonePET with
      | none => rw [hb] at hp1; simp at hp1
      | some b0 =>
          rw [hb] at hp1
          simp only [List.mem_singleton] at hp1
          subst hp1
          exact CatNonempty_toCatValue b0 (hNE2.2.2.2 b0 hb)

/-- C4 witness: the amended theorem applied to a one-row input, at the
Engine category that input produces. -/
theorem C4_no_empty_leaves_witness :
    CatNonempty (CatValue.flat [{ name := "Acme", domain := "", description := "" }]) :=
  (C4_no_empty_leaves [{ entity := "Acme", category := "Field & Mobilization" }] _ [] rfl).2.2.1
    ("Field & Mobilization", CatValue.flat [{ name := "Acme", domain := "", description := "" }])
    (by decide)

/-! ### Company shape preservation -/

theorem mem_listSum {α : Type} (l : List (Multiset α)) (c : α) :
    c ∈ l.sum ↔ ∃ m ∈ l, c ∈ m := by
  induction l with
  | nil => simp
  | cons m l2 ih => simp [List.sum_cons, Multiset.mem_add, ih]

theorem mem_catValueM_toM (b : Bucket) (c : Company) (h : c ∈ catValueM b.toCatValue) :
    c ∈ b.toM := by
  cases b with
  | flat cs ex => exact Multiset.mem_add.mpr (Or.inl h)
  | grouped m => exact h

theorem mem_leavesM_serialize (s : State) (c : Company)
    (h : c ∈ leavesM (serialize s)) : c ∈ stateM s := by
  show c ∈ brainM s.Brain + engineM s.Engine +
    subcatsM s.digitalCommsSubcats + petM s.MegaphonePET
  rcases Multiset.mem_add.mp h with h12 | h3
  · rcases Multiset.mem_add.mp h12 with h1 | h2
    · refine Multiset.mem_add.mpr (Or.inl (Multiset.mem_add.mpr (Or.inl
        (Multiset.mem_add.mpr (Or.inl ?_)))))
      obtain ⟨m, hm, hc⟩ := (mem_listSum _ c).mp h1
      obtain ⟨p, hp, hpm⟩ := List.mem_map.mp hm
      obtain ⟨p0, hp0, hpe⟩ := List.mem_map.mp hp
      subst hpe
      subst hpm
      exact (mem_listSum _ c).mpr ⟨subcatsM p0.2, List.mem_map_of_mem _ hp0, hc⟩
    · refine Multiset.mem_add.mpr (Or.inl (Multiset.mem_add.mpr (Or.inl
        (Multiset.mem_add.mpr (Or.inr ?_)))))
      obtain ⟨m, hm, hc⟩ := (mem_listSum _ c).mp h2
      obtain ⟨p, hp, hpm⟩ := List.mem_map.mp hm
      obtain ⟨k, hk, hkp⟩ := List.mem_filterMap.mp hp
      cases hlk : lookupStr s.Engine k with
      | none => rw [hlk] at hkp; simp at hkp
      | some b =>
          rw [hlk] at hkp
          simp only [Option.map_some', Option.some.injEq] at hkp
          subst hkp
          subst hpm
          exact (mem_listSum _ c).mpr
            ⟨b.toM, List.mem_map_of_mem _ (lookupStr_mem _ _ _ hlk), mem_catValueM_toM b c hc⟩
  · have hmeq : (serialize s).Megaphone =
        (if s.digitalCommsSubcats ≠ [] then
          [("Digital Communications and Advertising",
            CatValue.grouped (s.digitalCommsSubcats.filter fun p => p.2 ≠ []))]
         else []) ++
        (match s.MegaphonePET with
         | none => []
         | some b => [("Participation & Election Tech", b.toCatValue)]) := rfl
    rw [hmeq, pillarM_append] at h3
    rcases Multiset.mem_add.mp h3 with h4 | h5
    · by_cases hd : s.digitalCommsSubcats = []
      · rw [hd] at h4
        simp [pillarM] at h4
      · simp only [hd, ne_eq, not_false_iff, if_true] at h4
        have hc : c ∈ subcatsM (s.digitalCommsSubcats.filter fun p => p.2 ≠ []) := by
          simpa [pillarM, catValueM] using h4
        rw [subcatsM_filter_ne_nil] at hc
        exact Multiset.mem_add.mpr (Or.inl (Multiset.mem_add.mpr (Or.inr hc)))
    · cases hb : s.MegaphonePET with
      | none => rw [hb] at h5; simp [pillarM] at h5
      | some b =>
          rw [hb] at h5
          have hc : c ∈ catValueM b.toCatValue := by simpa [pillarM] using h5
          exact Multiset.mem_add.mpr (Or.inr (mem_catValueM_toM b c hc))

theorem rowCompany_WF (r : Row) (he : r.nEntity ≠ "") : CompanyWF (rowCompany r) := by
  refine ⟨he, ?_, ?_, ?_⟩
  · by_cases h : normalize r.hq = "" <;> simp [rowCompany, h]
  · by_cases h : normalize r.logo = "" <;> simp [rowCompany, h]
  · by_cases h : normalize (if r.hubURLCol ≠ "" then r.hubURLCol else r.hub_urlCol) = "" <;>
      simp [rowCompany, h]

theorem foldlM_ok_CWF (rows : List Row) (s s2 : State)
    (h : List.foldlM step s rows = Except.ok s2) (hWF : StateWF s)
    (hC : ∀ c ∈ stateM s, CompanyWF c) : ∀ c ∈ stateM s2, CompanyWF c := by
  induction rows generalizing s with
  | nil =>
      have h2 : (Except.ok s : Except String State) = Except.ok s2 := h
      injection h2 with h3
      subst h3
      exact hC
  | cons r rs ih =>
      rw [List.foldlM_cons] at h
      cases hstep : step s r with
      | error m =>
          rw [hstep] at h
          have herr : (Except.error m : Except String State) >>=
              (fun s1 => List.foldlM step s1 rs) = Except.error m := rfl
          rw [herr] at h
          exact absurd h (by simp)
      | ok s1 =>
          rw [hstep] at h
          have h1 : List.foldlM step s1 rs = Except.ok s2 := by simpa using h
          obtain ⟨hWF1, hacc⟩ := step_ok_stateM s r hWF s1 hstep
          refine ih s1 h1 hWF1 ?_
          rw [hacc]
          intro c hc
          rcases Multiset.mem_add.mp hc with hc1 | hc2
          · exact hC c hc1
          · by_cases hp : placedB r = true
            · rw [if_pos hp] at hc2
              have hceq : c = rowCompany r := Multiset.mem_singleton.mp hc2
              subst hceq
              have he : r.nEntity ≠ "" := by
                simp only [placedB, Bool.and_eq_true, bne_iff_ne, ne_eq] at hp
                exact hp.1
              exact rowCompany_WF r he
            · rw [if_neg hp] at hc2
              simp at hc2

/-- C9: every Company in an output leaf has a non-empty name, and the `hq`,
`logo` and `hub_url` fields are never retained as empty strings — a blank
source value yields an absent (`none`) field.  `domain` and `description`
are always present by the `Company` record type itself (they are plain
strings, defaulting to the empty string). -/
theorem C9_company_shape (rows : List Row) (out : PillarStructure) (warns : List String)
    (h : run rows = Except.ok (out, warns)) :
    ∀ c ∈ leavesM out, CompanyWF c := by
  obtain ⟨s2, hf, ho, hw⟩ := (run_ok_iff rows out warns).mp h
  subst ho
  intro c hc
  exact foldlM_ok_CWF rows initState s2 hf StateWF_initState
    (by
      intro c0 hc0
      rw [stateM_initState] at hc0
      simp at hc0)
    c (mem_leavesM_serialize s2 c hc)

/-- C9 witness: the theorem applied to a concrete one-row run, at the
company that run emits. -/
theorem C9_company_shape_witness :
    CompanyWF { name := "Acme", domain := "acme.io", description := "" } :=
  C9_company_shape
    [{ entity := "Acme", category := "Field & Mobilization", domain := "acme.io" }] _ [] rfl
    { name := "Acme", domain := "acme.io", description := "" } (by decide)

/-! ### Engine key tracking -/

theorem step_ok_engineLookup (s : State) (r : Row) :
    ∀ s2, step s r = Except.ok s2 → ∀ k,
      ((lookupStr s2.Engine k).isSome = true ↔
        ((lookupStr s.Engine k).isSome = true ∨ rowEngineKey r k = true)) := by
  refine @step_cases
    (fun res => ∀ s2, res = Except.ok s2 → ∀ k,
      ((lookupStr s2.Engine k).isSome = true ↔
        ((lookupStr s.Engine k).isSome = true ∨ rowEngineKey r k = true))) s r
    ?_ ?_ ?_ ?_ ?_ ?_ ?_ ?_ ?_ ?_ ?_ ?_
  · intro h s2 heq
    injection heq with h2
    subst h2
    intro k
    have hrk : rowEngineKey r k = false := by
      rcases h with he | hc
      · simp [rowEngineKey, he]
      · simp [rowEngineKey, hc]
    simp [hrk]
  · intro he hc hm s2 heq
    injection heq with h2
    subst h2
    intro k
    have h3 : r.nCategory ≠ "Field & Mobilization" := fun hh => by
      simp [categoryToPillar, hh] at hm
    have h4 : r.nCategory ≠ "Campaign Management & CRM" := fun hh => by
      simp [categoryToPillar, hh] at hm
    have h5 : r.nCategory ≠ "Fundraising & Payments" := fun hh => by
      simp [categoryToPillar, hh] at hm
    have h6 : r.nCategory ≠ "Organisational Infrastructure" := fun hh => by
      simp [categoryToPillar, hh] at hm
    have hrk : rowEngineKey r k = false := by simp [rowEngineKey, h3, h4, h5, h6]
    simp [hrk, addWarning]
  · intro he hcat hs s2 heq
    injection heq with h2
    subst h2
    intro k
    have hrk : rowEngineKey r k = false := by
      rcases hcat with h | h <;> simp [rowEngineKey, h]
    simp [hrk]
  · intro he hcat hs s2 heq
    injection heq with h2
    subst h2
    intro k
    have hrk : rowEngineKey r k = false := by
      rcases hcat with h | h <;> simp [rowEngineKey, h]
    simp [hrk, addWarning]
  · intro he hcat hs s2 heq
    injection heq with h2
    subst h2
    intro k
    by_cases hk : k = "Organizational Infrastructure"
    · subst hk
      show ((lookupStr (engineGroupedPush s.Engine r.nSubcategory (rowCompany r))
        "Organizational Infrastructure").isSome = true) ↔ _
      rw [engineGroupedPush_lookup_oi]
      have hrk : rowEngineKey r "Organizational Infrastructure" = true := by
        simp [rowEngineKey, he, hcat, hs]
      simp [hrk]
    · show ((lookupStr (engineGroupedPush s.Engine r.nSubcategory (rowCompany r)) k).isSome
        = true) ↔ _
      rw [engineGroupedPush_lookup_other _ _ _ k hk]
      have hrk : rowEngineKey r k = false := by simp [rowEngineKey, hcat, hk]
      simp [hrk]
  · intro he hcat hs s2 heq
    injection heq with h2
    subst h2
    intro k
    have hrk : rowEngineKey r k = false := by simp [rowEngineKey, hcat, hs]
    simp [hrk, addWarning]
  · intro he hcat s2 heq
    cases hpush : engineFlatPush s.Engine r.nCategory (rowCompany r) with
    | error msg => rw [hpush] at heq; exact absurd heq (by simp [Except.map])
    | ok e2 =>
        rw [hpush] at heq
        simp only [Except.map] at heq
        injection heq with h2
        subst h2
        intro k
        have hkeys := engineFlatPush_ok_keys _ _ _ _ hpush
        show ((lookupStr e2 k).isSome = true) ↔ _
        rw [lookupStr_isSome_iff, lookupStr_isSome_iff, hkeys]
        have hflats : (r.nCategory == "Field & Mobilization" ||
            r.nCategory == "Campaign Management & CRM" ||
            r.nCategory == "Fundraising & Payments") = true := by
          rcases hcat with h | h | h <;> simp [h]
        have hoi : (r.nCategory == "Organisational Infrastructure") = false := by
          rcases hcat with h | h | h <;> simp [h]
        have hrk : (rowEngineKey r k = true) ↔ k = r.nCategory := by
          simp [rowEngineKey, he, hflats, hoi]
        rw [hrk]
        by_cases hm : r.nCategory ∈ s.Engine.map Prod.fst
        · rw [if_pos hm]
          constructor
          · exact Or.inl
          · rintro (h | h)
            · exact h
            · exact h ▸ hm
        · rw [if_neg hm]
          simp [List.mem_append]
  · intro he hcat hs s2 heq
    injection heq with h2
    subst h2
    intro k
    have hrk : rowEngineKey r k = false := by simp [rowEngineKey, hcat]
    simp [hrk]
  · intro he hcat hs s2 heq
    injection heq with h2
    subst h2
    intro k
    have hrk : rowEngineKey r k = false := by simp [rowEngineKey, hcat]
    simp [hrk, addWarning]
  · intro he hcat hs s2 heq
    injection heq with h2
    subst h2
    intro k
    have hrk : rowEngineKey r k = false := by simp [rowEngineKey, hcat]
    simp [hrk]
  · intro he hcat hs s2 heq
    cases hpush : petFlatPush s.MegaphonePET (rowCompany r) with
    | error msg => rw [hpush] at heq; exact absurd heq (by simp [Except.map])
    | ok b2 =>
        rw [hpush] at heq
        simp only [Except.map] at heq
        injection heq with h2
        subst h2
        intro k
        have hrk : rowEngineKey r k = false := by simp [rowEngineKey, hcat]
        simp [hrk]
  · intro he hcat s2 heq
    injection heq with h2
    subst h2
    intro k
    have hrk : rowEngineKey r k = false := by
      rcases hcat with h | h <;> simp [rowEngineKey, h]
    simp [hrk]

theorem foldlM_ok_engineLookup (rows : List Row) (s s2 : State)
    (h : List.foldlM step s rows = Except.ok s2) :
    ∀ k, ((lookupStr s2.Engine k).isSome = true ↔
      ((lookupStr s.Engine k).isSome = true ∨ engineReceived rows k = true)) := by
  induction rows generalizing s with
  | nil =>
      have h2 : (Except.ok s : Except String State) = Except.ok s2 := h
      injection h2 with h3
      subst h3
      intro k
      simp [engineReceived]
  | cons r rs ih =>
      rw [List.foldlM_cons] at h
      cases hstep : step s r with
      | error m =>
          rw [hstep] at h
          have herr : (Except.error m : Except String State) >>=
              (fun s1 => List.foldlM step s1 rs) = Except.error m := rfl
          rw [herr] at h
          exact absurd h (by simp)
      | ok s1 =>
          rw [hstep] at h
          have h1 : List.foldlM step s1 rs = Except.ok s2 := by simpa using h
          intro k
          rw [ih s1 h1 k, step_ok_engineLookup s r s1 hstep k]
          simp [engineReceived, List.any_cons]
          tauto

theorem filterMap_lookup_keys (e : List (String × Bucket)) (ks : List String) :
    ((ks.filterMap fun k => (lookupStr e k).map fun b => (k, b.toCatValue)).map Prod.fst) =
      ks.filter fun k => (lookupStr e k).isSome := by
  induction ks with
  | nil => rfl
  | cons k ks2 ih =>
      cases hlk : lookupStr e k with
      | none =>
          rw [List.filterMap_cons_none (by simp [hlk]), List.filter_cons]
          simp [hlk, ih]
      | some b =>
          simp [List.filterMap_cons, List.filter_cons, hlk, ih]

/-- C6: the Engine pillar of the output carries exactly the Engine
categories that received at least one valid row, emitted in the fixed
sequence Field & Mobilization, Campaign Management & CRM, Fundraising &
Payments, Organizational Infrastructure — regardless of the order the rows
were scanned, with absent categories omitted without disturbing the order
of the rest. -/
theorem C6_engine_ordering (rows : List Row) (out : PillarStructure) (warns : List String)
    (h : run rows = Except.ok (out, warns)) :
    out.Engine.map Prod.fst = engineOrder.filter fun k => engineReceived rows k := by
  obtain ⟨s2, hf, ho, hw⟩ := (run_ok_iff rows out warns).mp h
  subst ho
  have hser : ((serialize s2).Engine.map Prod.fst) =
      engineOrder.filter fun k => (lookupStr s2.Engine k).isSome :=
    filterMap_lookup_keys s2.Engine engineOrder
  rw [hser]
  apply List.filter_congr
  intro k hk
  have h1 := foldlM_ok_engineLookup rows initState s2 hf k
  have h2 : (lookupStr initState.Engine k).isSome = false := rfl
  rw [h2] at h1
  simp only [Bool.false_eq_true, false_or] at h1
  exact Bool.eq_iff_iff.mpr h1

/-- C6 witness: rows for Fundraising & Payments then Field & Mobilization
(in that input order) still emit Field & Mobilization first. -/
theorem C6_engine_ordering_witness :
    ({ Brain := [("Research & Intelligence", CatValue.grouped []),
                 ("Strategy & Creative Production", CatValue.grouped [])],
       Engine := [("Field & Mobilization",
                    CatValue.flat [{ name := "E2", domain := "", description := "" }]),
                  ("Fundraising & Payments",
                    CatValue.flat [{ name := "E1", domain := "", description := "" }])],
       Megaphone := [] } : PillarStructure).Engine.map Prod.fst =
      engineOrder.filter fun k => engineReceived
        [{ entity := "E1", category := "Fundraising & Payments" },
         { entity := "E2", category := "Field & Mobilization" }] k :=
  C6_engine_ordering
    [{ entity := "E1", category := "Fundraising & Payments" },
     { entity := "E2", category := "Field & Mobilization" }] _ [] rfl

/-! ### Digital Comms buffer tracking -/

theorem step_ok_dca (s : State) (r : Row) :
    ∀ s2, step s r = Except.ok s2 →
      s2.digitalCommsSubcats = dcaStep s.digitalCommsSubcats r := by
  refine @step_cases
    (fun res => ∀ s2, res = Except.ok s2 →
      s2.digitalCommsSubcats = dcaStep s.digitalCommsSubcats r) s r
    ?_ ?_ ?_ ?_ ?_ ?_ ?_ ?_ ?_ ?_ ?_ ?_
  · intro h s2 heq
    injection heq with h2
    subst h2
    rcases h with he | hc
    · simp [dcaStep, he]
    · simp [dcaStep, hc]
  · intro he hc hm s2 heq
    injection heq with h2
    subst h2
    have h7 : r.nCategory ≠ "Digital Comms & Advertising" := fun hh => by
      simp [categoryToPillar, hh] at hm
    simp [dcaStep, h7, addWarning]
  · intro he hcat hs s2 heq
    injection heq with h2
    subst h2
    rcases hcat with h | h <;> simp [dcaStep, h]
  · intro he hcat hs s2 heq
    injection heq with h2
    subst h2
    rcases hcat with h | h <;> simp [dcaStep, h, addWarning]
  · intro he hcat hs s2 heq
    injection heq with h2
    subst h2
    simp [dcaStep, hcat]
  · intro he hcat hs s2 heq
    injection heq with h2
    subst h2
    simp [dcaStep, hcat, addWarning]
  · intro he hcat s2 heq
    cases hpush : engineFlatPush s.Engine r.nCategory (rowCompany r) with
    | error msg => rw [hpush] at heq; exact absurd heq (by simp [Except.map])
    | ok e2 =>
        rw [hpush] at heq
        simp only [Except.map] at heq
        injection heq with h2
        subst h2
        rcases hcat with h | h | h <;> simp [dcaStep, h]
  · intro he hcat hs s2 heq
    injection heq with h2
    subst h2
    simp [dcaStep, he, hcat, hs]
  · intro he hcat hs s2 heq
    injection heq with h2
    subst h2
    simp [dcaStep, hcat, hs, addWarning]
  · intro he hcat hs s2 heq
    injection heq with h2
    subst h2
    simp [dcaStep, hcat]
  · intro he hcat hs s2 heq
    cases hpush : petFlatPush s.MegaphonePET (rowCompany r) with
    | error msg => rw [hpush] at heq; exact absurd heq (by simp [Except.map])
    | ok b2 =>
        rw [hpush] at heq
        simp only [Except.map] at heq
        injection heq with h2
        subst h2
        simp [dcaStep, hcat]
  · intro he hcat s2 heq
    injection heq with h2
    subst h2
    rcases hcat with h | h <;> simp [dcaStep, h]

theorem foldlM_ok_dca (rows : List Row) (s s2 : State)
    (h : List.foldlM step s rows = Except.ok s2) :
    s2.digitalCommsSubcats = rows.foldl dcaStep s.digitalCommsSubcats := by
  induction rows generalizing s with
  | nil =>
      have h2 : (Except.ok s : Except String State) = Except.ok s2 := h
      injection h2 with h3
      subst h3
      rfl
  | cons r rs ih =>
      rw [List.foldlM_cons] at h
      cases hstep : step s r with
      | error m =>
          rw [hstep] at h
          have herr : (Except.error m : Except String State) >>=
              (fun s1 => List.foldlM step s1 rs) = Except.error m := rfl
          rw [herr] at h
          exact absurd h (by simp)
      | ok s1 =>
          rw [hstep] at h
          have h1 : List.foldlM step s1 rs = Except.ok s2 := by simpa using h
          rw [List.foldl_cons, ← step_ok_dca s r s1 hstep]
          exact ih s1 h1

theorem serialize_megaphone_dca (s : State)
    (hvals : ∀ q ∈ s.digitalCommsSubcats, q.2 ≠ []) :
    lookupStr (serialize s).Megaphone "Digital Communications and Advertising" =
      if s.digitalCommsSubcats = [] then none
      else some (CatValue.grouped s.digitalCommsSubcats) := by
  have hm : (serialize s).Megaphone =
      (if s.digitalCommsSubcats ≠ [] then
        [("Digital Communications and Advertising",
          CatValue.grouped (s.digitalCommsSubcats.filter fun p => p.2 ≠ []))]
       else []) ++
      (match s.MegaphonePET with
       | none => []
       | some b => [("Participation & Election Tech", b.toCatValue)]) := rfl
  rw [hm]
  by_cases hd : s.digitalCommsSubcats = []
  · simp only [hd, ne_eq, not_true_eq_false, if_false, List.nil_append, if_true]
    cases s.MegaphonePET with
    | none => rfl
    | some b => simp [lookupStr]
  · simp only [hd, ne_eq, not_false_iff, if_true, if_false, List.cons_append, List.nil_append]
    rw [filter_vals_ne_nil _ hvals]
    simp [lookupStr]

/-- C7: Digital Comms merge.  First conjunct: for every successful run, the
Megaphone category "Digital Communications and Advertising" of the output
is exactly the side buffer accumulated from the valid Digital Comms &
Advertising rows keyed by subcategory (in first-seen order, each list in
input order), emitted only when at least one company was buffered — so it
contains exactly the subcategories that received at least one company.
Second conjunct: a valid row of that category with an empty subcategory
only appends the warning naming the entity and is skipped. -/
theorem C7_digital_comms_merge :
    (∀ rows out warns, run rows = Except.ok (out, warns) →
      lookupStr out.Megaphone "Digital Communications and Advertising" =
        if dcaExpected rows = [] then none
        else some (CatValue.grouped (dcaExpected rows))) ∧
    (∀ s r, r.nEntity ≠ "" → r.nCategory = "Digital Comms & Advertising" →
      r.nSubcategory = "" →
      step s r = Except.ok (addWarning s
        ("Warning: " ++ r.nEntity ++ " in Digital Comms & Advertising has no subcategory"))) := by
  constructor
  · intro rows out warns h
    obtain ⟨s2, hf, ho, hw⟩ := (run_ok_iff rows out warns).mp h
    subst ho
    obtain ⟨hWF2, hNE2⟩ := foldlM_ok_inv rows initState s2 hf StateWF_initState StateNE_initState
    have hdca : s2.digitalCommsSubcats = dcaExpected rows :=
      foldlM_ok_dca rows initState s2 hf
    rw [serialize_megaphone_dca s2 hNE2.2.2.1, hdca]
  · intro s r he hcat hs
    simp [step, he, hcat, hs, categoryToPillar, addWarning]

/-- C7 witness: the first conjunct applied to a concrete one-row run. -/
theorem C7_digital_comms_merge_witness :
    lookupStr
      ({ Brain := [("Research & Intelligence", CatValue.grouped []),
                   ("Strategy & Creative Production", CatValue.grouped [])],
         Engine := [],
         Megaphone := [("Digital Communications and Advertising",
           CatValue.grouped [("SEO", [{ name := "D1", domain := "", description := "" }])])] }
        : PillarStructure).Megaphone
      "Digital Communications and Advertising" =
      (if dcaExpected
          [{ entity := "D1", category := "Digital Comms & Advertising", subCategory := "SEO" }]
          = [] then none
       else some (CatValue.grouped (dcaExpected
         [{ entity := "D1", category := "Digital Comms & Advertising", subCategory := "SEO" }]))) :=
  C7_digital_comms_merge.1
    [{ entity := "D1", category := "Digital Comms & Advertising", subCategory := "SEO" }]
    _ [] rfl

/-! ### Organizational Infrastructure tracking -/

theorem step_ok_oi (s : State) (r : Row) :
    ∀ s2 acc, step s r = Except.ok s2 →
      lookupStr s.Engine "Organizational Infrastructure" = optG acc →
      lookupStr s2.Engine "Organizational Infrastructure" = optG (oiStep acc r) := by
  refine @step_cases
    (fun res => ∀ s2 acc, res = Except.ok s2 →
      lookupStr s.Engine "Organizational Infrastructure" = optG acc →
      lookupStr s2.Engine "Organizational Infrastructure" = optG (oiStep acc r)) s r
    ?_ ?_ ?_ ?_ ?_ ?_ ?_ ?_ ?_ ?_ ?_ ?_
  · intro h s2 acc heq hacc
    injection heq with h2
    subst h2
    rcases h with he | hc
    · simpa [oiStep, he] using hacc
    · simpa [oiStep, hc] using hacc
  · intro he hc hm s2 acc heq hacc
    injection heq with h2
    subst h2
    have h6 : r.nCategory ≠ "Organisational Infrastructure" := fun hh => by
      simp [categoryToPillar, hh] at hm
    simpa [oiStep, h6, addWarning] using hacc
  · intro he hcat hs s2 acc heq hacc
    injection heq with h2
    subst h2
    rcases hcat with h | h <;> simpa [oiStep, h] using hacc
  · intro he hcat hs s2 acc heq hacc
    injection heq with h2
    subst h2
    rcases hcat with h | h <;> simpa [oiStep, h, addWarning] using hacc
  · intro he hcat hs s2 acc heq hacc
    injection heq with h2
    subst h2
    show lookupStr (engineGroupedPush s.Engine r.nSubcategory (rowCompany r))
      "Organizational Infrastructure" = _
    rw [engineGroupedPush_lookup_oi, hacc]
    have hguard : oiStep acc r = pushAssoc acc r.nSubcategory (rowCompany r) := by
      simp [oiStep, he, hcat, hs]
    rw [hguard]
    by_cases h0 : acc = []
    · subst h0
      simp [optG, petGroupedPush, pushAssoc]
    · simp [optG, h0, petGroupedPush, pushAssoc_ne_nil]
  · intro he hcat hs s2 acc heq hacc
    injection heq with h2
    subst h2
    simpa [oiStep, hcat, hs, addWarning] using hacc
  · intro he hcat s2 acc heq hacc
    cases hpush : engineFlatPush s.Engine r.nCategory (rowCompany r) with
    | error msg => rw [hpush] at heq; exact absurd heq (by simp [Except.map])
    | ok e2 =>
        rw [hpush] at heq
        simp only [Except.map] at heq
        injection heq with h2
        subst h2
        have hne : ("Organizational Infrastructure" : String) ≠ r.nCategory := by
          rcases hcat with h | h | h <;> simp [h]
        have hguard : oiStep acc r = acc := by
          rcases hcat with h | h | h <;> simp [oiStep, h]
        rw [hguard]
        show lookupStr e2 "Organizational Infrastructure" = _
        rw [engineFlatPush_ok_lookup_other _ _ _ _ _ hpush hne]
        exact hacc
  · intro he hcat hs s2 acc heq hacc
    injection heq with h2
    subst h2
    simpa [oiStep, hcat] using hacc
  · intro he hcat hs s2 acc heq hacc
    injection heq with h2
    subst h2
    simpa [oiStep, hcat, addWarning] using hacc
  · intro he hcat hs s2 acc heq hacc
    injection heq with h2
    subst h2
    simpa [oiStep, hcat] using hacc
  · intro he hcat hs s2 acc heq hacc
    cases hpush : petFlatPush s.MegaphonePET (rowCompany r) with
    | error msg => rw [hpush] at heq; exact absurd heq (by simp [Except.map])
    | ok b2 =>
        rw [hpush] at heq
        simp only [Except.map] at heq
        injection heq with h2
        subst h2
        simpa [oiStep, hcat] using hacc
  · intro he hcat s2 acc heq hacc
    injection heq with h2
    subst h2
    rcases hcat with h | h <;> simpa [oiStep, h] using hacc

theorem foldlM_ok_oi (rows : List Row) (s s2 : State) (acc : Subcats)
    (h : List.foldlM step s rows = Except.ok s2)
    (hacc : lookupStr s.Engine "Organizational Infrastructure" = optG acc) :
    lookupStr s2.Engine "Organizational Infrastructure" = optG (rows.foldl oiStep acc) := by
  induction rows generalizing s acc with
  | nil =>
      have h2 : (Except.ok s : Except String State) = Except.ok s2 := h
      injection h2 with h3
      subst h3
      exact hacc
  | cons r rs ih =>
      rw [List.foldlM_cons] at h
      cases hstep : step s r with
      | error m =>
          rw [hstep] at h
          have herr : (Except.error m : Except String State) >>=
              (fun s1 => List.foldlM step s1 rs) = Except.error m := rfl
          rw [herr] at h
          exact absurd h (by simp)
      | ok s1 =>
          rw [hstep] at h
          have h1 : List.foldlM step s1 rs = Except.ok s2 := by simpa using h
          rw [List.foldl_cons]
          exact ih s1 (oiStep acc r) h1 (step_ok_oi s r s1 acc hstep hacc)

theorem lookupStr_filterMap_toCat (e : List (String × Bucket)) (ks : List String) (k : String)
    (hnd : ks.Nodup) (hk : k ∈ ks) :
    lookupStr (ks.filterMap fun x => (lookupStr e x).map fun b => (x, b.toCatValue)) k =
      (lookupStr e k).map Bucket.toCatValue := by
  induction ks with
  | nil => simp at hk
  | cons x ks2 ih =>
      simp only [List.nodup_cons] at hnd
      by_cases hx : x = k
      · subst hx
        cases hlx : lookupStr e x with
        | none =>
            rw [List.filterMap_cons_none (by simp [hlx])]
            have hnot : x ∉ ((ks2.filterMap fun y =>
                (lookupStr e y).map fun b => (y, b.toCatValue)).map Prod.fst) := by
              rw [filterMap_lookup_keys]
              intro hmem
              exact hnd.1 (List.mem_of_mem_filter hmem)
            rw [lookupStr_eq_none _ _ hnot]
            rfl
        | some b => simp [List.filterMap_cons, hlx, lookupStr]
      · have hk2 : k ∈ ks2 := by
          rcases List.mem_cons.mp hk with h | h
          · exact absurd h.symm hx
          · exact h
        cases hlx : lookupStr e x with
        | none =>
            rw [List.filterMap_cons_none (by simp [hlx])]
            exact ih hnd.2 hk2
        | some bx =>
            simp only [List.filterMap_cons, hlx, Option.map_some']
            show lookupStr ((x, bx.toCatValue) :: _) k = _
            simp only [lookupStr, if_neg hx]
            exact ih hnd.2 hk2

/-- C10: Organisational Infrastructure rename.  The mapping table routes
the raw (British-spelling) category "Organisational Infrastructure" to the
Engine pillar under the canonical American-spelling display name
"Organizational Infrastructure"; every successful run emits at
Engine["Organizational Infrastructure"] exactly the subcategory map
accumulated from the valid rows of that raw category carrying a
subcategory (omitted when there were none); and such a row with an empty
subcategory only appends the warning naming the entity and is skipped. -/
theorem C10_org_infra_rename :
    categoryToPillar "Organisational Infrastructure" =
      some ("Engine", some "Organizational Infrastructure") ∧
    (∀ rows out warns, run rows = Except.ok (out, warns) →
      lookupStr out.Engine "Organizational Infrastructure" =
        if oiExpected rows = [] then none
        else some (CatValue.grouped (oiExpected rows))) ∧
    (∀ s r, r.nEntity ≠ "" → r.nCategory = "Organisational Infrastructure" →
      r.nSubcategory = "" →
      step s r = Except.ok (addWarning s
        ("Warning: " ++ r.nEntity ++ " in " ++ r.nCategory ++ " has no subcategory"))) := by
  refine ⟨rfl, ?_, ?_⟩
  · intro rows out warns h
    obtain ⟨s2, hf, ho, hw⟩ := (run_ok_iff rows out warns).mp h
    subst ho
    have hoi : lookupStr s2.Engine "Organizational Infrastructure" = optG (oiExpected rows) :=
      foldlM_ok_oi rows initState s2 [] hf (by simp [initState, lookupStr, optG])
    show lookupStr (engineOrder.filterMap fun x =>
      (lookupStr s2.Engine x).map fun b => (x, b.toCatValue)) "Organizational Infrastructure" = _
    rw [lookupStr_filterMap_toCat s2.Engine engineOrder "Organizational Infrastructure"
      (by decide) (by simp [engineOrder]), hoi]
    by_cases h0 : oiExpected rows = []
    · simp [optG, h0]
    · simp [optG, h0, Bucket.toCatValue]
  · intro s r he hcat hs
    simp [step, he, hcat, hs, categoryToPillar, addWarning]

/-- C10 witness: the run conjunct applied to a concrete one-row input. -/
theorem C10_org_infra_rename_witness :
    lookupStr
      ({ Brain := [("Research & Intelligence", CatValue.grouped []),
                   ("Strategy & Creative Production", CatValue.grouped [])],
         Engine := [("Organizational Infrastructure",
           CatValue.grouped [("Cloud", [{ name := "E3", domain := "", description := "" }])])],
         Megaphone := [] } : PillarStructure).Engine
      "Organizational Infrastructure" =
      (if oiExpected
          [{ entity := "E3", category := "Organisational Infrastructure", subCategory := "Cloud" }]
          = [] then none
       else some (CatValue.grouped (oiExpected
         [{ entity := "E3", category := "Organisational Infrastructure", subCategory := "Cloud" }]))) :=
  C10_org_infra_rename.2.1
    [{ entity := "E3", category := "Organisational Infrastructure", subCategory := "Cloud" }]
    _ [] rfl

/-! ### Participation & Election Tech slot tracking -/

theorem serialize_megaphone_pet (s : State) :
    lookupStr (serialize s).Megaphone "Participation & Election Tech" =
      s.MegaphonePET.map Bucket.toCatValue := by
  have hm : (serialize s).Megaphone =
      (if s.digitalCommsSubcats ≠ [] then
        [("Digital Communications and Advertising",
          CatValue.grouped (s.digitalCommsSubcats.filter fun p => p.2 ≠ []))]
       else []) ++
      (match s.MegaphonePET with
       | none => []
       | some b => [("Participation & Election Tech", b.toCatValue)]) := rfl
  rw [hm]
  by_cases hd : s.digitalCommsSubcats = [] <;>
    cases hb : s.MegaphonePET <;> simp [hd, lookupStr]

theorem step_ok_petG (s : State) (r : Row) :
    ∀ s2 acc, step s r = Except.ok s2 →
      (isPETRow r = true → r.nSubcategory ≠ "") →
      s.MegaphonePET = optG acc →
      s2.MegaphonePET = optG (petGStep acc r) := by
  refine @step_cases
    (fun res => ∀ s2 acc, res = Except.ok s2 →
      (isPETRow r = true → r.nSubcategory ≠ "") →
      s.MegaphonePET = optG acc →
      s2.MegaphonePET = optG (petGStep acc r)) s r
    ?_ ?_ ?_ ?_ ?_ ?_ ?_ ?_ ?_ ?_ ?_ ?_
  · intro h s2 acc heq hmode hacc
    injection heq with h2
    subst h2
    rcases h with he | hc
    · simpa [petGStep, isPETRow, he] using hacc
    · simpa [petGStep, isPETRow, hc] using hacc
  · intro he hc hm s2 acc heq hmode hacc
    injection heq with h2
    subst h2
    have h10 : r.nCategory ≠ "Participation & Election Tech" := fun hh => by
      simp [categoryToPillar, hh] at hm
    simpa [petGStep, isPETRow, h10, addWarning] using hacc
  · intro he hcat hs s2 acc heq hmode hacc
    injection heq with h2
    subst h2
    rcases hcat with h | h <;> simpa [petGStep, isPETRow, h] using hacc
  · intro he hcat hs s2 acc heq hmode hacc
    injection heq with h2
    subst h2
    rcases hcat with h | h <;> simpa [petGStep, isPETRow, h, addWarning] using hacc
  · intro he hcat hs s2 acc heq hmode hacc
    injection heq with h2
    subst h2
    simpa [petGStep, isPETRow, hcat] using hacc
  · intro he hcat hs s2 acc heq hmode hacc
    injection heq with h2
    subst h2
    simpa [petGStep, isPETRow, hcat, addWarning] using hacc
  · intro he hcat s2 acc heq hmode hacc
    cases hpush : engineFlatPush s.Engine r.nCategory (rowCompany r) with
    | error msg => rw [hpush] at heq; exact absurd heq (by simp [Except.map])
    | ok e2 =>
        rw [hpush] at heq
        simp only [Except.map] at heq
        injection heq with h2
        subst h2
        rcases hcat with h | h | h <;> simpa [petGStep, isPETRow, h] using hacc
  · intro he hcat hs s2 acc heq hmode hacc
    injection heq with h2
    subst h2
    simpa [petGStep, isPETRow, hcat] using hacc
  · intro he hcat hs s2 acc heq hmode hacc
    injection heq with h2
    subst h2
    simpa [petGStep, isPETRow, hcat, addWarning] using hacc
  · intro he hcat hs s2 acc heq hmode hacc
    injection heq with h2
    subst h2
    show some (petGroupedPush s.MegaphonePET r.nSubcategory (rowCompany r)) = _
    rw [hacc]
    have hguard : petGStep acc r = pushAssoc acc r.nSubcategory (rowCompany r) := by
      simp [petGStep, isPETRow, he, hcat, hs]
    rw [hguard]
    by_cases h0 : acc = []
    · subst h0
      simp [optG, petGroupedPush, pushAssoc]
    · simp [optG, h0, petGroupedPush, pushAssoc_ne_nil]
  · intro he hcat hs s2 acc heq hmode hacc
    exfalso
    have hpet : isPETRow r = true := by simp [isPETRow, he, hcat]
    exact hmode hpet hs
  · intro he hcat s2 acc heq hmode hacc
    injection heq with h2
    subst h2
    rcases hcat with h | h <;> simpa [petGStep, isPETRow, h] using hacc

theorem step_ok_petF (s : State) (r : Row) :
    ∀ s2 acc, step s r = Except.ok s2 →
      (isPETRow r = true → r.nSubcategory = "") →
      s.MegaphonePET = optF acc →
      s2.MegaphonePET = optF (petFStep acc r) := by
  refine @step_cases
    (fun res => ∀ s2 acc, res = Except.ok s2 →
      (isPETRow r = true → r.nSubcategory = "") →
      s.MegaphonePET = optF acc →
      s2.MegaphonePET = optF (petFStep acc r)) s r
    ?_ ?_ ?_ ?_ ?_ ?_ ?_ ?_ ?_ ?_ ?_ ?_
  · intro h s2 acc heq hmode hacc
    injection heq with h2
    subst h2
    rcases h with he | hc
    · simpa [petFStep, isPETRow, he] using hacc
    · simpa [petFStep, isPETRow, hc] using hacc
  · intro he hc hm s2 acc heq hmode hacc
    injection heq with h2
    subst h2
    have h10 : r.nCategory ≠ "Participation & Election Tech" := fun hh => by
      simp [categoryToPillar, hh] at hm
    simpa [petFStep, isPETRow, h10, addWarning] using hacc
  · intro he hcat hs s2 acc heq hmode hacc
    injection heq with h2
    subst h2
    rcases hcat with h | h <;> simpa [petFStep, isPETRow, h] using hacc
  · intro he hcat hs s2 acc heq hmode hacc
    injection heq with h2
    subst h2
    rcases hcat with h | h <;> simpa [petFStep, isPETRow, h, addWarning] using hacc
  · intro he hcat hs s2 acc heq hmode hacc
    injection heq with h2
    subst h2
    simpa [petFStep, isPETRow, hcat] using hacc
  · intro he hcat hs s2 acc heq hmode hacc
    injection heq with h2
    subst h2
    simpa [petFStep, isPETRow, hcat, addWarning] using hacc
  · intro he hcat s2 acc heq hmode hacc
    cases hpush : engineFlatPush s.Engine r.nCategory (rowCompany r) with
    | error msg => rw [hpush] at heq; exact absurd heq (by simp [Except.map])
    | ok e2 =>
        rw [hpush] at heq
        simp only [Except.map] at heq
        injection heq with h2
        subst h2
        rcases hcat with h | h | h <;> simpa [petFStep, isPETRow, h] using hacc
  · intro he hcat hs s2 acc heq hmode hacc
    injection heq with h2
    subst h2
    simpa [petFStep, isPETRow, hcat] using hacc
  · intro he hcat hs s2 acc heq hmode hacc
    injection heq with h2
    subst h2
    simpa [petFStep, isPETRow, hcat, addWarning] using hacc
  · intro he hcat hs s2 acc heq hmode hacc
    exfalso
    have hpet : isPETRow r = true := by simp [isPETRow, he, hcat]
    exact hs (hmode hpet)
  · intro he hcat hs s2 acc heq hmode hacc
    rw [hacc] at heq
    have hguard : petFStep acc r = acc ++ [rowCompany r] := by
      simp [petFStep, isPETRow, he, hcat, hs]
    rw [hguard]
    by_cases h0 : acc = []
    · subst h0
      have heq2 : (Except.ok { s with MegaphonePET := some (Bucket.flat [rowCompany r] []) }
          : Except String State) = Except.ok s2 := by simpa [optF, petFlatPush, Except.map] using heq
      injection heq2 with h2
      subst h2
      simp [optF]
    · have heq2 : (Except.ok
          { s with MegaphonePET := some (Bucket.flat (acc ++ [rowCompany r]) []) }
          : Except String State) = Except.ok s2 := by simpa [optF, h0, petFlatPush, Except.map] using heq
      injection heq2 with h2
      subst h2
      simp [optF]
  · intro he hcat s2 acc heq hmode hacc
    injection heq with h2
    subst h2
    rcases hcat with h | h <;> simpa [petFStep, isPETRow, h] using hacc

theorem foldlM_ok_petG (rows : List Row) (s s2 : State) (acc : Subcats)
    (h : List.foldlM step s rows = Except.ok s2)
    (hrows : ∀ r ∈ rows, isPETRow r = true → r.nSubcategory ≠ "")
    (hacc : s.MegaphonePET = optG acc) :
    s2.MegaphonePET = optG (rows.foldl petGStep acc) := by
  induction rows generalizing s acc with
  | nil =>
      have h2 : (Except.ok s : Except String State) = Except.ok s2 := h
      injection h2 with h3
      subst h3
      exact hacc
  | cons r rs ih =>
      rw [List.foldlM_cons] at h
      cases hstep : step s r with
      | error m =>
          rw [hstep] at h
          have herr : (Except.error m : Except String State) >>=
              (fun s1 => List.foldlM step s1 rs) = Except.error m := rfl
          rw [herr] at h
          exact absurd h (by simp)
      | ok s1 =>
          rw [hstep] at h
          have h1 : List.foldlM step s1 rs = Except.ok s2 := by simpa using h
          rw [List.foldl_cons]
          exact ih s1 (petGStep acc r) h1
            (fun q hq => hrows q (List.mem_cons_of_mem _ hq))
            (step_ok_petG s r s1 acc hstep (hrows r (List.mem_cons_self _ _)) hacc)

theorem foldlM_ok_petF (rows : List Row) (s s2 : State) (acc : List Company)
    (h : List.foldlM step s rows = Except.ok s2)
    (hrows : ∀ r ∈ rows, isPETRow r = true → r.nSubcategory = "")
    (hacc : s.MegaphonePET = optF acc) :
    s2.MegaphonePET = optF (rows.foldl petFStep acc) := by
  induction rows generalizing s acc with
  | nil =>
      have h2 : (Except.ok s : Except String State) = Except.ok s2 := h
      injection h2 with h3
      subst h3
      exact hacc
  | cons r rs ih =>
      rw [List.foldlM_cons] at h
      cases hstep : step s r with
      | error m =>
          rw [hstep] at h
          have herr : (Except.error m : Except String State) >>=
              (fun s1 => List.foldlM step s1 rs) = Except.error m := rfl
          rw [herr] at h
          exact absurd h (by simp)
      | ok s1 =>
          rw [hstep] at h
          have h1 : List.foldlM step s1 rs = Except.ok s2 := by simpa using h
          rw [List.foldl_cons]
          exact ih s1 (petFStep acc r) h1
            (fun q hq => hrows q (List.mem_cons_of_mem _ hq))
            (step_ok_petF s r s1 acc hstep (hrows r (List.mem_cons_self _ _)) hacc)

/-- C8, counterexample to the claim as stated: a subcategory-less
Participation & Election Tech row creates the slot as a flat array; a later
subcategory-bearing row of the same category then stores its company as a
non-index named property of that array, which `JSON.stringify` drops — the
run succeeds but entity "G" appears nowhere in the output, instead of at
Megaphone["Participation & Election Tech"]["Polling"]. -/
theorem C8_counterexample :
    run [{ entity := "F", category := "Participation & Election Tech" },
         { entity := "G", category := "Participation & Election Tech", subCategory := "Polling" }] =
      Except.ok
        ({ Brain := [("Research & Intelligence", CatValue.grouped []),
                     ("Strategy & Creative Production", CatValue.grouped [])],
           Engine := [],
           Megaphone := [("Participation & Election Tech",
             CatValue.flat [{ name := "F", domain := "", description := "" }])] }, []) :=
  rfl

/-- C8 (amended): Participation & Election Tech placement holds for runs
whose rows of that category agree on subcategory presence.  When every such
row carries a subcategory, the output category is the grouped map
accumulated by subcategory; when none does, it is the flat list in input
order; in both shapes the category is omitted when no row arrived.  In
mixed runs the code misbehaves instead: a grouped row arriving after a flat
one is silently dropped from the output, and a flat row arriving after a
grouped one throws a TypeError. -/
theorem C8_pet_placement :
    (∀ rows out warns, (∀ r ∈ rows, isPETRow r = true → r.nSubcategory ≠ "") →
      run rows = Except.ok (out, warns) →
      lookupStr out.Megaphone "Participation & Election Tech" =
        if petGroupedExpected rows = [] then none
        else some (CatValue.grouped (petGroupedExpected rows))) ∧
    (∀ rows out warns, (∀ r ∈ rows, isPETRow r = true → r.nSubcategory = "") →
      run rows = Except.ok (out, warns) →
      lookupStr out.Megaphone "Participation & Election Tech" =
        if petFlatExpected rows = [] then none
        else some (CatValue.flat (petFlatExpected rows))) := by
  constructor
  · intro rows out warns hrows h
    obtain ⟨s2, hf, ho, hw⟩ := (run_ok_iff rows out warns).mp h
    subst ho
    have hpet : s2.MegaphonePET = optG (petGroupedExpected rows) :=
      foldlM_ok_petG rows initState s2 [] hf hrows (by simp [initState, optG])
    rw [serialize_megaphone_pet, hpet]
    by_cases h0 : petGroupedExpected rows = []
    · simp [optG, h0]
    · simp [optG, h0, Bucket.toCatValue]
  · intro rows out warns hrows h
    obtain ⟨s2, hf, ho, hw⟩ := (run_ok_iff rows out warns).mp h
    subst ho
    have hpet : s2.MegaphonePET = optF (petFlatExpected rows) :=
      foldlM_ok_petF rows initState s2 [] hf hrows (by simp [initState, optF])
    rw [serialize_megaphone_pet, hpet]
    by_cases h0 : petFlatExpected rows = []
    · simp [optF, h0]
    · simp [optF, h0, Bucket.toCatValue]

/-- C8 witness: the flat conjunct applied to a concrete one-row input. -/
theorem C8_pet_placement_witness :
    lookupStr
      ({ Brain := [("Research & Intelligence", CatValue.grouped []),
                   ("Strategy & Creative Production", CatValue.grouped [])],
         Engine := [],
         Megaphone := [("Participation & Election Tech",
           CatValue.flat [{ name := "F", domain := "", description := "" }])] }
        : PillarStructure).Megaphone
      "Participation & Election Tech" =
      (if petFlatExpected [{ entity := "F", category := "Participation & Election Tech" }] = []
       then none
       else some (CatValue.flat (petFlatExpected
         [{ entity := "F", category := "Participation & Election Tech" }]))) :=
  C8_pet_placement.2 [{ entity := "F", category := "Participation & Election Tech" }]
    _ [] (by decide) rfl

end EPTL
